import Mathlib

/-!
Shallow embedding of the BGP simulator (src/bgp_simulator.h,
src/bgp_simulator.cpp, src/main.cpp) and verification of its
specification.

Conventions of the embedding:
  * C++ `int` ASNs are modelled as `Int` (no arithmetic that can overflow
    is performed on ASNs, so no wrap-around modelling is needed).
  * `std::unordered_map` keyed containers are modelled as association
    lists in insertion order; the C++ iteration order of an unordered
    container is unspecified, and none of the verified properties depends
    on it.
  * `std::shared_ptr<Route>` sharing is immaterial (routes are copied on
    send and never mutated after installation), so routes are plain values.
  * The propagation engine is parameterised over the decision predicate
    `dec` so that the engine run with `better_route` can be compared with
    the engine run with the ROV clause removed; `better_route` itself is
    translated verbatim from the source.
-/

namespace BGPSim

/-- `RelationType` from bgp_simulator.h. -/
inductive RelationType where
  | providerToCustomer
  | peerToPeer
  | customerToProvider
deriving DecidableEq, Repr

/-- `AnnouncementType` from bgp_simulator.h. -/
inductive AnnouncementType where
  | learnedFromCustomer
  | learnedFromPeer
  | learnedFromProvider
deriving DecidableEq, Repr

open RelationType AnnouncementType

/-- `Route` from bgp_simulator.h.  The C++ field `prefix` is called `pfx`
here (`prefix` is a reserved word in this development). -/
structure Route where
  pfx : String
  as_path : List Int
  announcement_type : AnnouncementType
  rov_invalid : Bool
deriving DecidableEq, Repr

/-- `Route::prepend`: insert at the front of `as_path`. -/
def Route.prepend (r : Route) (asn : Int) : Route :=
  { r with as_path := asn :: r.as_path }

/-- `Route::get_origin_asn`: last element of the path, `-1` if empty. -/
def Route.get_origin_asn (r : Route) : Int :=
  match r.as_path.getLast? with
  | some a => a
  | none => -1

/-- `ASGraph` from bgp_simulator.h: adjacency list keyed by ASN
(association list in insertion order) plus the set of all ASNs
(list in insertion order, no duplicates). -/
structure ASGraph where
  adjacency : List (Int × List (Int × RelationType))
  all_asns : List Int
deriving DecidableEq, Repr

/-- Append `entry` to the vector stored under key `k`, default-constructing
an empty vector first when `k` is absent (C++ `adjacency[asn].push_back`). -/
def adjPush (k : Int) (entry : Int × RelationType) :
    List (Int × List (Int × RelationType)) → List (Int × List (Int × RelationType))
  | [] => [(k, [entry])]
  | (a, l) :: rest =>
      if a = k then (a, l ++ [entry]) :: rest
      else (a, l) :: adjPush k entry rest

/-- Insert into the `all_asns` set (modelled as append-if-absent). -/
def setInsert (x : Int) (s : List Int) : List Int :=
  if x ∈ s then s else s ++ [x]

/-- `ASGraph::add_relationship`: add the forward edge and its inverse,
and record both ASNs. -/
def ASGraph.add_relationship (g : ASGraph) (asn1 asn2 : Int)
    (rel_type : RelationType) : ASGraph :=
  let reverse_rel :=
    match rel_type with
    | providerToCustomer => customerToProvider
    | customerToProvider => providerToCustomer
    | peerToPeer => peerToPeer
  { adjacency := adjPush asn2 (asn1, reverse_rel) (adjPush asn1 (asn2, rel_type) g.adjacency),
    all_asns := setInsert asn2 (setInsert asn1 g.all_asns) }

/-- `ASGraph::get_neighbors`: the adjacency list of `asn`, empty when
the ASN is unknown. -/
def ASGraph.get_neighbors (g : ASGraph) (asn : Int) : List (Int × RelationType) :=
  match g.adjacency.find? (fun e => e.1 = asn) with
  | some e => e.2
  | none => []

/-- Local-RIB of the whole simulator: map from `(asn, prefix)` to the
installed route, as an association list with unique keys. -/
abbrev RibMap := List ((Int × String) × Route)

/-- Message queues: map from `(asn, prefix)` to the ordered list of
pending routes. -/
abbrev QueueMap := List ((Int × String) × List Route)

/-- Lookup in the RIB. -/
def ribFind (m : RibMap) (k : Int × String) : Option Route :=
  match m.find? (fun e => e.1 = k) with
  | some e => some e.2
  | none => none

/-- Insert-or-replace in the RIB (C++ `ribs[asn][prefix] = route`). -/
def ribInsert (k : Int × String) (v : Route) : RibMap → RibMap
  | [] => [(k, v)]
  | e :: rest => if e.1 = k then (k, v) :: rest else e :: ribInsert k v rest

/-- Append a route to the queue at key `k`
(C++ `message_queues[receiver][prefix].push_back`). -/
def queuePush (k : Int × String) (v : Route) : QueueMap → QueueMap
  | [] => [(k, [v])]
  | e :: rest => if e.1 = k then (e.1, e.2 ++ [v]) :: rest else e :: queuePush k v rest

/-- Mutable simulator state: the RIBs and the message queues.  The graph,
the ROV set and the rank index are immutable during propagation and are
passed separately. -/
structure SimState where
  ribs : RibMap
  queues : QueueMap
deriving DecidableEq, Repr

/-- `BGPSimulator::seed_announcement`: install the single-hop route
directly into the origin's RIB (the `graph.all_asns.insert` side effect is
modelled where the graph is threaded, see `runMain`). -/
def seed_announcement (origin_asn : Int) (pfx : String) (rov_invalid : Bool)
    (st : SimState) : SimState :=
  let route : Route := ⟨pfx, [origin_asn], learnedFromCustomer, rov_invalid⟩
  { st with ribs := ribInsert (origin_asn, pfx) route st.ribs }

/-- `BGPSimulator::relationship_to_announcement_type`. -/
def relationship_to_announcement_type (rel_type : RelationType) : AnnouncementType :=
  match rel_type with
  | customerToProvider => learnedFromCustomer
  | peerToPeer => learnedFromPeer
  | providerToCustomer => learnedFromProvider

/-- `BGPSimulator::can_export`. -/
def can_export (route : Route) (export_relationship : RelationType) : Bool :=
  match route.announcement_type with
  | learnedFromCustomer => true
  | learnedFromProvider => export_relationship = providerToCustomer
  | learnedFromPeer => export_relationship = providerToCustomer

/-- Local preference used by `better_route`: customer 2, peer 1, provider 0. -/
def prefOf (t : AnnouncementType) : Int :=
  if t = learnedFromCustomer then 2 else if t = learnedFromPeer then 1 else 0

/-- Next-hop ASN used by `better_route`'s tie-break: `as_path[1]` when the
path has at least two elements, else `as_path[0]`.  The C++ `operator[]`
is unchecked; on an empty path (which never arises) we totalise with 0. -/
def nextHop (r : Route) : Int :=
  if r.as_path.length ≥ 2 then r.as_path.getD 1 0 else r.as_path.getD 0 0

/-- `BGPSimulator::better_route`, translated clause by clause. -/
def better_route (rov_enabled_asns : List Int) (new_route existing_route : Route)
    (deciding_asn : Int) : Bool :=
  if deciding_asn ∈ rov_enabled_asns ∧ new_route.rov_invalid ≠ existing_route.rov_invalid then
    !new_route.rov_invalid
  else
    let new_pref := prefOf new_route.announcement_type
    let existing_pref := prefOf existing_route.announcement_type
    if new_pref ≠ existing_pref then
      new_pref > existing_pref
    else if new_route.as_path.length ≠ existing_route.as_path.length then
      new_route.as_path.length < existing_route.as_path.length
    else
      nextHop new_route < nextHop existing_route

/-- `better_route` with the ROV clause deleted (used only to state the
claim that deleting the clause does not change any RIB). -/
def better_route_noRov (new_route existing_route : Route) : Bool :=
  let new_pref := prefOf new_route.announcement_type
  let existing_pref := prefOf existing_route.announcement_type
  if new_pref ≠ existing_pref then
    new_pref > existing_pref
  else if new_route.as_path.length ≠ existing_route.as_path.length then
    new_route.as_path.length < existing_route.as_path.length
  else
    nextHop new_route < nextHop existing_route

/-- `BGPSimulator::send_route_to_neighbor`: suppress when the receiver is
already on the path, then apply export policy, then enqueue the clone with
the receiver prepended and the receiver-side announcement type. -/
def send_route_to_neighbor (receiver_asn : Int) (route : Route)
    (relationship : RelationType) (st : SimState) : SimState :=
  if receiver_asn ∈ route.as_path then st
  else if !can_export route relationship then st
  else
    let sent_route := { route.prepend receiver_asn with
      announcement_type := relationship_to_announcement_type relationship }
    { st with queues := queuePush (receiver_asn, route.pfx) sent_route st.queues }

/-- One install step of `BGPSimulator::process_messages` for a single
queued route at `asn`: ROV ingress drop, then install or compare with the
incumbent under the decision predicate `dec`. -/
def processOne (dec : Route → Route → Int → Bool) (rov_enabled_asns : List Int)
    (asn : Int) (ribs : RibMap) (route : Route) : RibMap :=
  if asn ∈ rov_enabled_asns ∧ route.rov_invalid then ribs
  else
    match ribFind ribs (asn, route.pfx) with
    | none => ribInsert (asn, route.pfx) route ribs
    | some existing_route =>
        if dec route existing_route asn then ribInsert (asn, route.pfx) route ribs
        else ribs

/-- `BGPSimulator::process_messages`: ingest every queued route at `asn`
in order, then clear the queue at `asn`. -/
def process_messages (dec : Route → Route → Int → Bool) (rov_enabled_asns : List Int)
    (asn : Int) (st : SimState) : SimState :=
  let pending := st.queues.filter (fun e => e.1.1 = asn)
  let ribs' := pending.foldl
    (fun ribs e => e.2.foldl (processOne dec rov_enabled_asns asn) ribs) st.ribs
  { ribs := ribs', queues := st.queues.filter (fun e => ¬ e.1.1 = asn) }

/-- Pointwise update of a counter function (C++ `customer_count[k] = v`). -/
def fupd (f : Int → Int) (k : Int) (v : Int) : Int → Int :=
  fun x => if x = k then v else f x

/-- Initial customer counters of `BGPSimulator::flatten_graph`: the number
of `PROVIDER_TO_CUSTOMER` adjacency entries at `a` (0 for an ASN absent
from the adjacency, matching `unordered_map` default construction). -/
def initCounts (g : ASGraph) (a : Int) : Int :=
  ((g.get_neighbors a).filter (fun nb => nb.2 = providerToCustomer)).length

/-- One adjacency entry of a drained ASN inside the wave loop of
`flatten_graph`: follow a `CUSTOMER_TO_PROVIDER` edge, decrement the
provider's counter, and enqueue the provider when the counter hits 0. -/
def drainStep (acc : (Int → Int) × List Int) (nb : Int × RelationType) :
    (Int → Int) × List Int :=
  if nb.2 = customerToProvider then
    let c := acc.1 nb.1 - 1
    (fupd acc.1 nb.1 c, if c = 0 then acc.2 ++ [nb.1] else acc.2)
  else acc

/-- Drain one ASN of the current wave. -/
def drainNode (g : ASGraph) (acc : (Int → Int) × List Int) (asn : Int) :
    (Int → Int) × List Int :=
  (g.get_neighbors asn).foldl drainStep acc

/-- Drain one whole wave (the `level_size` snapshot of the C++ queue):
returns the updated counters and the ASNs enqueued during the wave, in
enqueue order — exactly the next wave. -/
def processWave (g : ASGraph) (counts : Int → Int) (wave : List Int) :
    (Int → Int) × List Int :=
  wave.foldl (drainNode g) (counts, [])

/-- The wave loop of `flatten_graph`.  `fuel` only bounds the number of
waves; since every ASN is enqueued at most once (its counter passes 0 at
most once), `all_asns.length + 1` waves always suffice for graphs whose
adjacency entries stay inside `all_asns`, so the fuelled loop computes
exactly what the unbounded C++ `while` computes. -/
def kahnLoop (g : ASGraph) : Nat → (Int → Int) → List Int → Nat →
    List (Int × Nat) → List (List Int) → List (Int × Nat) × List (List Int)
  | 0, _, _, _, a2r, r2a => (a2r, r2a)
  | fuel + 1, counts, wave, rank, a2r, r2a =>
    match wave with
    | [] => (a2r, r2a)
    | _ =>
      let next := processWave g counts wave
      kahnLoop g fuel next.1 next.2 (rank + 1)
        (a2r ++ wave.map (fun a => (a, rank))) (r2a ++ [wave])

/-- `BGPSimulator::flatten_graph`: Kahn-style level waves over the
customer→provider direction.  Returns (`asn_to_rank`, `rank_to_asns`). -/
def flatten_graph (g : ASGraph) : List (Int × Nat) × List (List Int) :=
  let queue0 := g.all_asns.filter (fun a => initCounts g a = 0)
  kahnLoop g (g.all_asns.length + 1) (initCounts g) queue0 0 [] []

/-- Rank of an ASN as recorded by `flatten_graph`. -/
def rankOf (g : ASGraph) (a : Int) : Option Nat :=
  match (flatten_graph g).1.find? (fun e => e.1 = a) with
  | some e => some e.2
  | none => none

/-- The send half of one phase for a single ASN: for every route in this
ASN's RIB, send it along every adjacency entry carrying the wanted
relation (the C++ loops over `rib_it->second` and `get_neighbors`). -/
def sendPhase (g : ASGraph) (rel : RelationType) (asn : Int) (st : SimState) : SimState :=
  (st.ribs.filter (fun e => e.1.1 = asn)).foldl
    (fun st2 e =>
      (g.get_neighbors asn).foldl
        (fun st3 nb =>
          if nb.2 = rel then send_route_to_neighbor nb.1 e.2 nb.2 st3 else st3)
        st2)
    st

/-- Phase 1 (UP) of `BGPSimulator::propagate`: each rank sends along
customer→provider edges, then the next rank up processes its queues. -/
def phase1Go (dec : Route → Route → Int → Bool) (rov : List Int) (g : ASGraph) :
    List (List Int) → SimState → SimState
  | [], st => st
  | group :: rest, st =>
    let st1 := group.foldl (fun s a => sendPhase g customerToProvider a s) st
    let st2 :=
      match rest with
      | [] => st1
      | next :: _ => next.foldl (fun s a => process_messages dec rov a s) st1
    phase1Go dec rov g rest st2

/-- Phase 2 (PEER): each rank sends along peer edges, then the same rank
processes. -/
def phase2Go (dec : Route → Route → Int → Bool) (rov : List Int) (g : ASGraph) :
    List (List Int) → SimState → SimState
  | [], st => st
  | group :: rest, st =>
    let st1 := group.foldl (fun s a => sendPhase g peerToPeer a s) st
    let st2 := group.foldl (fun s a => process_messages dec rov a s) st1
    phase2Go dec rov g rest st2

/-- Phase 3 (DOWN), written as the mirror image of phase 1: the rank list
is reversed, each rank sends along provider→customer edges, then the next
rank down processes. -/
def phase3Go (dec : Route → Route → Int → Bool) (rov : List Int) (g : ASGraph) :
    List (List Int) → SimState → SimState
  | [], st => st
  | group :: rest, st =>
    let st1 := group.foldl (fun s a => sendPhase g providerToCustomer a s) st
    let st2 :=
      match rest with
      | [] => st1
      | prev :: _ => prev.foldl (fun s a => process_messages dec rov a s) st1
    phase3Go dec rov g rest st2

/-- One full iteration of the propagation loop: UP, PEER, DOWN. -/
def runIteration (dec : Route → Route → Int → Bool) (rov : List Int) (g : ASGraph)
    (ranks : List (List Int)) (st : SimState) : SimState :=
  phase3Go dec rov g ranks.reverse
    (phase2Go dec rov g ranks
      (phase1Go dec rov g ranks st))

/-- Total RIB entry count across all ASes (the convergence measure of
`BGPSimulator::propagate`). -/
def totalRoutes (st : SimState) : Nat :=
  st.ribs.length

/-- The iteration loop of `BGPSimulator::propagate`.  `fuel + 1` is the
number of iterations still allowed; the top-level call passes 20, and the
C++ `iteration >= 20` test after a failed convergence check is exactly
`fuel = 0` here. -/
def propagateLoop (dec : Route → Route → Int → Bool) (rov : List Int) (g : ASGraph)
    (ranks : List (List Int)) : Nat → Nat → SimState → Bool × SimState
  | 0, _, st => (false, st)
  | fuel + 1, prev, st =>
    let st1 := runIteration dec rov g ranks st
    let total := totalRoutes st1
    if total = prev then (true, st1)
    else if fuel = 0 then (false, st1)
    else propagateLoop dec rov g ranks fuel total st1

/-- `BGPSimulator::propagate`: flatten the graph, then iterate up to 20
times starting from a previous total of 0. -/
def propagate (dec : Route → Route → Int → Bool) (rov : List Int) (g : ASGraph)
    (st : SimState) : Bool × SimState :=
  propagateLoop dec rov g (flatten_graph g).2 20 0 st

/-! ### The surrounding I/O layer (main.cpp), modelled on file contents

Files are modelled as `Option (List String)`: `none` when the file cannot
be opened, `some lines` otherwise. -/

/-- Accumulate decimal digits (the value built by `strtol`/`operator>>`). -/
def digitsToNat : List Char → Nat → Nat
  | [], acc => acc
  | c :: rest, acc => digitsToNat rest (acc * 10 + (c.toNat - ('0').toNat))

/-- The numeric lexeme shared by `std::stoi` and
`operator>>(std::istream&, int&)`: skip leading whitespace, optional
sign, then at least one digit; return the (unbounded) value and the
unconsumed rest, or `none` when no digit is found.  The 32-bit range
check both perform on the lexed value is applied by `extractInt`. -/
def readInt (cs : List Char) : Option (Int × List Char) :=
  let cs1 := cs.dropWhile Char.isWhitespace
  let signAndRest : Bool × List Char :=
    match cs1 with
    | '-' :: r => (true, r)
    | '+' :: r => (false, r)
    | r => (false, r)
  let digits := signAndRest.2.takeWhile Char.isDigit
  let rest := signAndRest.2.dropWhile Char.isDigit
  if digits.isEmpty then none
  else
    let n : Int := digitsToNat digits 0
    some (if signAndRest.1 then -n else n, rest)

/-- Bounds of a 32-bit C++ `int`. -/
def intMin : Int := -2147483648

/-- Bounds of a 32-bit C++ `int`. -/
def intMax : Int := 2147483647

/-- Extraction of one `int`, as observable through both entry points of
the program: `std::stoi` throws `invalid_argument` when no digit is found
and `out_of_range` when the lexed value does not fit in a 32-bit `int`;
`operator>>(std::istream&, int&)` sets `failbit` in exactly the same two
situations (storing a clamped value the callers never read, since every
caller discards the whole line on a failed extraction).  Both failure
modes are `none` here. -/
def extractInt (cs : List Char) : Option (Int × List Char) :=
  match readInt cs with
  | none => none
  | some p => if intMin ≤ p.1 ∧ p.1 ≤ intMax then some p else none

/-- One line of the relationships file (`ASGraph::load_from_file` body):
skip empty and `#` lines, replace `|` by spaces, extract three ints, map
the code (−1 provider-of, 0 peer, other skip — an out-of-`int`-range
field fails the extraction and skips the line). -/
def parseRelLine (line : String) : Option (Int × Int × RelationType) :=
  if line.isEmpty then none
  else if line.toList.head? = some '#' then none
  else
    let cs := line.toList.map (fun c => if c = '|' then ' ' else c)
    match extractInt cs with
    | none => none
    | some (asn1, r1) =>
      match extractInt r1 with
      | none => none
      | some (asn2, r2) =>
        match extractInt r2 with
        | none => none
        | some (rel_code, _) =>
          if rel_code = -1 then some (asn1, asn2, providerToCustomer)
          else if rel_code = 0 then some (asn1, asn2, peerToPeer)
          else none

/-- `ASGraph::load_from_file` over the list of lines of an opened file. -/
def load_from_file_lines (lines : List String) : ASGraph :=
  lines.foldl
    (fun g line =>
      match parseRelLine line with
      | some (a1, a2, rel) => g.add_relationship a1 a2 rel
      | none => g)
    ⟨[], []⟩

/-- `load_rov_asns` over the lines of an opened file: trim, skip empty and
`#` lines, `std::stoi` each remaining line, skipping lines on which it
throws (no leading integer, or a value outside 32-bit `int`). -/
def load_rov_asns (lines : List String) : List Int :=
  lines.foldl
    (fun acc line =>
      let t := line.trim
      if t.isEmpty then acc
      else if t.toList.head? = some '#' then acc
      else
        match extractInt t.toList with
        | some p => setInsert p.1 acc
        | none => acc)
    []

/-- The three comma `std::getline` extractions of `load_announcements` on
one row: each extraction fails exactly when the remaining stream is
empty; the third extraction takes everything up to end of line. -/
def csvSplit3 (line : String) : Option (String × String × String) :=
  match line.toList with
  | [] => none
  | cs =>
    let f1 := cs.takeWhile (fun c => ¬ c = ',')
    let r1 := (cs.dropWhile (fun c => ¬ c = ',')).drop 1
    match r1 with
    | [] => none
    | _ =>
      let f2 := r1.takeWhile (fun c => ¬ c = ',')
      let r2 := (r1.dropWhile (fun c => ¬ c = ',')).drop 1
      match r2 with
      | [] => none
      | _ => some (⟨f1⟩, ⟨f2⟩, ⟨r2⟩)

/-- Does `needle` occur at the very front of the second list? -/
def matchesFront : List Char → List Char → Bool
  | [], _ => true
  | _ :: _, [] => false
  | a :: as, b :: bs => a = b && matchesFront as bs

/-- Does `needle` occur anywhere in the second list
(`std::string::find != npos`)? -/
def hasSubstr (needle : List Char) : List Char → Bool
  | [] => matchesFront needle []
  | b :: bs => matchesFront needle (b :: bs) || hasSubstr needle bs

/-- Truthiness of the `rov_invalid` CSV field: contains `True`, `true`
or `1` as a substring. -/
def truthy (s : String) : Bool :=
  hasSubstr "True".toList s.toList || hasSubstr "true".toList s.toList ||
    hasSubstr "1".toList s.toList

/-- The row loop of `load_announcements`: rows whose three-way split fails
are skipped; a row on whose origin field `std::stoi` throws — no leading
integer (`invalid_argument`) or a value outside 32-bit `int`
(`out_of_range`) — aborts the loop (second component `true`); otherwise
the row yields one seed. -/
def loadAnnRows : List String → List (Int × String × Bool) × Bool
  | [] => ([], false)
  | line :: rest =>
    match csvSplit3 line with
    | none => loadAnnRows rest
    | some (f1, f2, f3) =>
      match extractInt f1.toList with
      | none => ([], true)
      | some p =>
        let r := loadAnnRows rest
        ((p.1, f2, truthy f3) :: r.1, r.2)

/-- `load_announcements`: drop the header row, then run the row loop. -/
def load_announcements (lines : List String) : List (Int × String × Bool) × Bool :=
  loadAnnRows (lines.drop 1)

/-- The recursive lambda of `ASGraph::has_customer_provider_cycle`.
`gray` is the current DFS stack (scoped per call, matching the
GRAY/BLACK discipline), `black` accumulates finished nodes.  On a found
cycle the C++ returns immediately, leaving the current node unblackened.
The fuel only bounds recursion depth; each recursive call pushes a new
distinct gray node, so `all_asns.length + 1` suffices for graphs whose
adjacency entries stay inside `all_asns`. -/
def cycleDfs (g : ASGraph) : Nat → List Int → List Int → Int → Bool × List Int
  | 0, _, black, _ => (false, black)
  | fuel + 1, gray, black, u =>
    let grayU := u :: gray
    let r := (g.get_neighbors u).foldl
      (fun (acc : Bool × List Int) nb =>
        if acc.1 then acc
        else if ¬ nb.2 = customerToProvider then acc
        else if nb.1 ∈ grayU then (true, acc.2)
        else if nb.1 ∈ acc.2 then acc
        else cycleDfs g fuel grayU acc.2 nb.1)
      (false, black)
    (r.1, if r.1 then r.2 else u :: r.2)

/-- `ASGraph::has_customer_provider_cycle`: run the DFS from every node
not yet blackened. -/
def has_customer_provider_cycle (g : ASGraph) : Bool :=
  (g.all_asns.foldl
    (fun (acc : Bool × List Int) asn =>
      if acc.1 then acc
      else if asn ∈ acc.2 then acc
      else cycleDfs g (g.all_asns.length + 1) [] acc.2 asn)
    (false, [])).1

/-- The control flow of `main` after argument parsing, on opened-file
contents.  `rovArg = none` models the `--rov-asns` flag being absent;
`some none` models the flag given but the file failing to open (warning
only); `some (some lines)` a readable file.  Result: the process exit
code, and `some ribs` exactly when `ribs.csv` is written.  (Seeds made
before an announcement-row abort are dead state — `main` exits before
propagation — so they are not threaded.) -/
def runMain (relFile : Option (List String)) (annFile : Option (List String))
    (rovArg : Option (Option (List String))) : Nat × Option RibMap :=
  match relFile with
  | none => (1, none)
  | some relLines =>
    let g := load_from_file_lines relLines
    if has_customer_provider_cycle g then (1, none)
    else
      let rov : List Int :=
        match rovArg with
        | none => []
        | some none => []
        | some (some rovLines) => load_rov_asns rovLines
      match annFile with
      | none => (1, none)
      | some annLines =>
        let loaded := load_announcements annLines
        if loaded.2 then (1, none)
        else
          let g2 := loaded.1.foldl
            (fun gr s => { gr with all_asns := setInsert s.1 gr.all_asns }) g
          let st0 := loaded.1.foldl
            (fun st s => seed_announcement s.1 s.2.1 s.2.2 st)
            (⟨[], []⟩ : SimState)
          let result := propagate (better_route rov) rov g2 st0
          if result.1 then (0, some (result.2).ribs) else (1, none)

/-! ### Basic lemmas about the map operations -/

theorem ribFind_cons (e : (Int × String) × Route) (rest : RibMap) (k : Int × String) :
    ribFind (e :: rest) k = if e.1 = k then some e.2 else ribFind rest k := by
  by_cases h : e.1 = k <;> simp [ribFind, List.find?, h]

theorem ribFind_ribInsert_self (k : Int × String) (v : Route) (m : RibMap) :
    ribFind (ribInsert k v m) k = some v := by
  induction m with
  | nil => simp [ribInsert, ribFind_cons]
  | cons e rest ih =>
    by_cases h : e.1 = k
    · simp [ribInsert, h, ribFind_cons]
    · rw [ribInsert, if_neg h, ribFind_cons, if_neg h]
      exact ih

theorem ribFind_ribInsert_ne (k k' : Int × String) (v : Route) (m : RibMap)
    (h : k' ≠ k) : ribFind (ribInsert k v m) k' = ribFind m k' := by
  have hk : ¬ (k = k') := fun hh => h hh.symm
  induction m with
  | nil => simp [ribInsert, ribFind_cons, hk]
  | cons e rest ih =>
    by_cases he : e.1 = k
    · rw [ribInsert, if_pos he, ribFind_cons, if_neg hk, ribFind_cons, if_neg]
      rw [he]; exact hk
    · rw [ribInsert, if_neg he, ribFind_cons, ribFind_cons]
      by_cases he' : e.1 = k'
      · simp [he']
      · rw [if_neg he', if_neg he']
        exact ih

theorem length_ribInsert_ge (k : Int × String) (v : Route) (m : RibMap) :
    m.length ≤ (ribInsert k v m).length := by
  induction m with
  | nil => simp [ribInsert]
  | cons e rest ih =>
    by_cases h : e.1 = k
    · simp [ribInsert, h]
    · simp only [ribInsert, if_neg h, List.length_cons]
      omega

theorem mem_ribInsert (k : Int × String) (v : Route) (m : RibMap) (e : (Int × String) × Route)
    (h : e ∈ ribInsert k v m) : e = (k, v) ∨ e ∈ m := by
  induction m with
  | nil => simpa [ribInsert] using h
  | cons e' rest ih =>
    by_cases h' : e'.1 = k
    · rcases (by simpa [ribInsert, h'] using h) with h2 | h2
      · exact Or.inl (by simp [h2])
      · exact Or.inr (List.mem_cons_of_mem _ h2)
    · rcases (by simpa [ribInsert, h'] using h) with h2 | h2
      · exact Or.inr (by simp [h2])
      · rcases ih h2 with h3 | h3
        · exact Or.inl h3
        · exact Or.inr (List.mem_cons_of_mem _ h3)

/-- A route is pending in a queue map when some entry's list contains it. -/
def pendingIn (q : QueueMap) (r : Route) : Prop :=
  ∃ e ∈ q, r ∈ e.2

theorem pendingIn_queuePush (k : Int × String) (v : Route) (q : QueueMap) (r : Route)
    (h : pendingIn (queuePush k v q) r) : pendingIn q r ∨ r = v := by
  induction q with
  | nil =>
    obtain ⟨e, he, hr⟩ := h
    simp [queuePush] at he
    subst he
    simpa [pendingIn] using hr
  | cons e' rest ih =>
    obtain ⟨e, he, hr⟩ := h
    by_cases h' : e'.1 = k
    · rcases (by simpa [queuePush, h'] using he) with h2 | h2
      · subst h2
        rcases List.mem_append.mp hr with h3 | h3
        · exact Or.inl ⟨e', List.mem_cons_self _ _, h3⟩
        · exact Or.inr (by simpa using h3)
      · exact Or.inl ⟨e, List.mem_cons_of_mem _ h2, hr⟩
    · rcases (by simpa [queuePush, h'] using he) with h2 | h2
      · exact Or.inl ⟨e, by simp [h2], hr⟩
      · rcases ih ⟨e, h2, hr⟩ with h3 | h3
        · obtain ⟨e2, he2, hr2⟩ := h3
          exact Or.inl ⟨e2, List.mem_cons_of_mem _ he2, hr2⟩
        · exact Or.inr h3

theorem pendingIn_filter (p : (Int × String) × List Route → Bool) (q : QueueMap) (r : Route)
    (h : pendingIn (q.filter p) r) : pendingIn q r := by
  obtain ⟨e, he, hr⟩ := h
  exact ⟨e, (List.mem_filter.mp he).1, hr⟩

/-! ### C1: the decision process -/

/-- Local preference exactly as §4.3(2) of the spec words it. -/
def localPrefSpec : AnnouncementType → Int
  | learnedFromCustomer => 2
  | learnedFromPeer => 1
  | learnedFromProvider => 0

/-- Next-hop ASN exactly as §4.3(4) of the spec words it. -/
def nextHopSpec (r : Route) : Int :=
  if r.as_path.length ≥ 2 then r.as_path.getD 1 0 else r.as_path.getD 0 0

/-- The decision process §4.3 as the spec words it: ordered criteria, each
strict, candidate `c` against incumbent `e` at deciding AS `d`. -/
def better_route_spec (rov : List Int) (c e : Route) (d : Int) : Bool :=
  if d ∈ rov ∧ c.rov_invalid ≠ e.rov_invalid then
    !c.rov_invalid
  else if localPrefSpec c.announcement_type ≠ localPrefSpec e.announcement_type then
    localPrefSpec c.announcement_type > localPrefSpec e.announcement_type
  else if c.as_path.length ≠ e.as_path.length then
    c.as_path.length < e.as_path.length
  else
    nextHopSpec c < nextHopSpec e

theorem prefOf_eq_localPrefSpec (t : AnnouncementType) : prefOf t = localPrefSpec t := by
  cases t <;> rfl

/-- C1.  `better_route` decides exactly by the spec's ordered strict
criteria — ROV clause, local preference (customer 2, peer 1, provider 0),
strictly shorter path, strictly lower next-hop — and returns `false`
whenever no criterion strictly separates the two routes, in particular on
a candidate equal to the incumbent. -/
theorem better_route_follows_spec_C1 :
    (∀ rov c e d, better_route rov c e d = better_route_spec rov c e d) ∧
    (∀ rov c d, better_route rov c c d = false) := by
  constructor
  · intro rov c e d
    unfold better_route better_route_spec
    rw [prefOf_eq_localPrefSpec, prefOf_eq_localPrefSpec]
    rfl
  · intro rov c d
    unfold better_route
    simp

/-! ### C2: the export policy -/

/-- C2.  `can_export` permits export iff the route was learned from a
customer, or the export edge is provider→customer. -/
theorem can_export_iff_C2 :
    ∀ r rel, can_export r rel = true ↔
      (r.announcement_type = learnedFromCustomer ∨ rel = providerToCustomer) := by
  intro r rel
  unfold can_export
  cases h : r.announcement_type <;> cases rel <;> simp

/-! ### C10: seeding bypasses the ingress ROV drop -/

/-- C10.  `seed_announcement` installs the single-hop customer-typed route
unconditionally, even at an ROV-enabled origin with `rov_invalid = true`
(it never consults the ROV set), while `process_messages` discards such a
route when it arrives through the queue: from an empty RIB, a queued
`rov_invalid` route at an ROV-enabled AS installs nothing. -/
theorem seed_bypasses_rov_C10 :
    (∀ (st : SimState) (origin : Int) (pfx : String) (rov : List Int), origin ∈ rov →
      ribFind (seed_announcement origin pfx true st).ribs (origin, pfx) =
        some ⟨pfx, [origin], learnedFromCustomer, true⟩) ∧
    (∀ rov asn pfx r, asn ∈ rov → r.rov_invalid = true → r.pfx = pfx →
      (process_messages (better_route rov) rov asn
        ⟨[], [((asn, pfx), [r])]⟩).ribs = []) := by
  constructor
  · intro st origin pfx rov _
    unfold seed_announcement
    exact ribFind_ribInsert_self _ _ _
  · intro rov asn pfx r hmem hinv _
    simp [process_messages, List.filter, processOne, hmem, hinv]

/-- Closed witness for C10 at a concrete input. -/
theorem seed_bypasses_rov_C10_witness :
    ((2 : Int) ∈ [(2 : Int)] ∧
      ribFind (seed_announcement 2 "p" true ⟨[], []⟩).ribs (2, "p") =
        some ⟨"p", [2], learnedFromCustomer, true⟩) ∧
    ((process_messages (better_route [2]) [2] 2
        ⟨[], [((2, "p"), [⟨"p", [2, 1], learnedFromProvider, true⟩])]⟩).ribs = []) := by
  refine ⟨⟨by decide, seed_bypasses_rov_C10.1 _ 2 "p" [2] (by decide)⟩, ?_⟩
  exact seed_bypasses_rov_C10.2 [2] 2 "p" _ (by decide) (by decide) (by decide)

/-! ### C4: loop freedom -/

/-- Per-route invariant over the whole state: `Q` holds for every route
installed in any RIB and for every route pending in any queue. -/
def RouteInv (Q : Route → Prop) (st : SimState) : Prop :=
  (∀ e ∈ st.ribs, Q e.2) ∧ (∀ r, pendingIn st.queues r → Q r)

/-- A per-route predicate survives one hop when it transfers from the
route in the sender's RIB to the clone enqueued at the receiver. -/
def SendStable (Q : Route → Prop) : Prop :=
  ∀ (receiver : Int) (route : Route) (rel : RelationType),
    Q route → receiver ∉ route.as_path →
      Q { route.prepend receiver with
            announcement_type := relationship_to_announcement_type rel }

theorem RouteInv_send {Q : Route → Prop} (hQ : SendStable Q) (receiver : Int)
    (route : Route) (rel : RelationType) (st : SimState) (hinv : RouteInv Q st)
    (hr : Q route) : RouteInv Q (send_route_to_neighbor receiver route rel st) := by
  unfold send_route_to_neighbor
  by_cases hmem : receiver ∈ route.as_path
  · simpa [hmem] using hinv
  · by_cases hexp : can_export route rel
    · simp only [if_neg hmem, hexp, Bool.not_true, Bool.false_eq_true, if_false]
      refine ⟨hinv.1, ?_⟩
      intro r hp
      rcases pendingIn_queuePush _ _ _ _ hp with h | h
      · exact hinv.2 r h
      · subst h
        exact hQ receiver route rel hr hmem
    · simp only [if_neg hmem, hexp, Bool.not_false, if_true]
      exact hinv

theorem RouteInv_sendInner {Q : Route → Prop} (hQ : SendStable Q) (rel : RelationType)
    (route : Route) (hr : Q route) (nbs : List (Int × RelationType)) :
    ∀ st : SimState, RouteInv Q st →
      RouteInv Q (nbs.foldl
        (fun st3 nb => if nb.2 = rel then send_route_to_neighbor nb.1 route nb.2 st3 else st3)
        st) := by
  induction nbs with
  | nil => intro st h; exact h
  | cons nb rest ih =>
    intro st h
    simp only [List.foldl_cons]
    by_cases hnb : nb.2 = rel
    · exact ih _ (by simpa [hnb] using RouteInv_send hQ nb.1 route nb.2 st h hr)
    · simpa [hnb] using ih _ h

theorem RouteInv_sendEntries {Q : Route → Prop} (hQ : SendStable Q) (g : ASGraph)
    (rel : RelationType) (asn : Int)
    (es : List ((Int × String) × Route)) (hall : ∀ e ∈ es, Q e.2) :
    ∀ st : SimState, RouteInv Q st →
      RouteInv Q (es.foldl
        (fun st2 e =>
          (g.get_neighbors asn).foldl
            (fun st3 nb =>
              if nb.2 = rel then send_route_to_neighbor nb.1 e.2 nb.2 st3 else st3)
            st2)
        st) := by
  induction es with
  | nil => intro st h; exact h
  | cons e rest ih =>
    intro st h
    simp only [List.foldl_cons]
    exact ih (fun e' he' => hall e' (List.mem_cons_of_mem _ he')) _
      (RouteInv_sendInner hQ rel e.2 (hall e (List.mem_cons_self _ _)) _ st h)

theorem RouteInv_sendPhase {Q : Route → Prop} (hQ : SendStable Q) (g : ASGraph)
    (rel : RelationType) (asn : Int)
    (st : SimState) (hinv : RouteInv Q st) : RouteInv Q (sendPhase g rel asn st) := by
  unfold sendPhase
  exact RouteInv_sendEntries hQ g rel asn _
    (fun e he => hinv.1 e (List.mem_filter.mp he).1) st hinv

theorem RouteInv_processOne {Q : Route → Prop} (dec : Route → Route → Int → Bool)
    (rov : List Int) (asn : Int) (ribs : RibMap) (route : Route)
    (hall : ∀ e ∈ ribs, Q e.2) (hr : Q route) :
    ∀ e ∈ processOne dec rov asn ribs route, Q e.2 := by
  intro e he
  unfold processOne at he
  split at he
  · exact hall e he
  · split at he
    · rcases mem_ribInsert _ _ _ _ he with h | h
      · subst h; exact hr
      · exact hall e h
    · split at he
      · rcases mem_ribInsert _ _ _ _ he with h | h
        · subst h; exact hr
        · exact hall e h
      · exact hall e he

theorem RouteInv_processList {Q : Route → Prop} (dec : Route → Route → Int → Bool)
    (rov : List Int) (asn : Int) (routes : List Route) (hroutes : ∀ r ∈ routes, Q r) :
    ∀ ribs : RibMap, (∀ e ∈ ribs, Q e.2) →
      ∀ e ∈ routes.foldl (processOne dec rov asn) ribs, Q e.2 := by
  induction routes with
  | nil => intro ribs h; exact h
  | cons r rest ih =>
    intro ribs h
    simp only [List.foldl_cons]
    exact ih (fun r' hr' => hroutes r' (List.mem_cons_of_mem _ hr')) _
      (RouteInv_processOne dec rov asn ribs r h (hroutes r (List.mem_cons_self _ _)))

theorem RouteInv_processPending {Q : Route → Prop} (dec : Route → Route → Int → Bool)
    (rov : List Int) (asn : Int) (pend : List ((Int × String) × List Route))
    (hpend : ∀ e ∈ pend, ∀ r ∈ e.2, Q r) :
    ∀ ribs : RibMap, (∀ e ∈ ribs, Q e.2) →
      ∀ e ∈ pend.foldl (fun ribs e => e.2.foldl (processOne dec rov asn) ribs) ribs,
        Q e.2 := by
  induction pend with
  | nil => intro ribs h; exact h
  | cons e rest ih =>
    intro ribs h
    simp only [List.foldl_cons]
    exact ih (fun e' he' => hpend e' (List.mem_cons_of_mem _ he')) _
      (RouteInv_processList dec rov asn e.2 (hpend e (List.mem_cons_self _ _)) ribs h)

theorem RouteInv_process {Q : Route → Prop} (dec : Route → Route → Int → Bool)
    (rov : List Int) (asn : Int) (st : SimState) (hinv : RouteInv Q st) :
    RouteInv Q (process_messages dec rov asn st) := by
  unfold process_messages
  constructor
  · exact RouteInv_processPending dec rov asn _
      (fun e he r hr => hinv.2 r ⟨e, (List.mem_filter.mp he).1, hr⟩) st.ribs hinv.1
  · intro r hp
    exact hinv.2 r (pendingIn_filter _ _ _ hp)

/-- Loop-freedom invariant: every installed and every pending route has a
duplicate-free AS path. -/
def NodupInv (st : SimState) : Prop :=
  RouteInv (fun r => r.as_path.Nodup) st

theorem nodup_SendStable : SendStable (fun r => r.as_path.Nodup) := by
  intro receiver route rel hr hmem
  simpa [Route.prepend, List.nodup_cons] using ⟨hmem, hr⟩

/-! Generic preservation of a state predicate through the propagation
driver: any predicate preserved by `sendPhase` and `process_messages` is
preserved by every phase, every iteration, and the whole loop. -/

theorem inv_foldl {α : Type} {P : SimState → Prop} (f : SimState → α → SimState)
    (l : List α) (hf : ∀ st a, P st → P (f st a)) :
    ∀ st, P st → P (l.foldl f st) := by
  induction l with
  | nil => intro st h; exact h
  | cons a rest ih =>
    intro st h
    simp only [List.foldl_cons]
    exact ih _ (hf st a h)

theorem inv_phase1Go {P : SimState → Prop} (dec : Route → Route → Int → Bool)
    (rov : List Int) (g : ASGraph)
    (hsend : ∀ rel asn st, P st → P (sendPhase g rel asn st))
    (hproc : ∀ asn st, P st → P (process_messages dec rov asn st)) :
    ∀ (ranks : List (List Int)) (st : SimState), P st → P (phase1Go dec rov g ranks st) := by
  intro ranks
  induction ranks with
  | nil => intro st h; exact h
  | cons group rest ih =>
    intro st h
    unfold phase1Go
    have h1 := inv_foldl _ group (fun st a hp => hsend customerToProvider a st hp) st h
    cases rest with
    | nil => exact ih _ h1
    | cons next rest' =>
      exact ih _ (inv_foldl _ next (fun st a hp => hproc a st hp) _ h1)

theorem inv_phase2Go {P : SimState → Prop} (dec : Route → Route → Int → Bool)
    (rov : List Int) (g : ASGraph)
    (hsend : ∀ rel asn st, P st → P (sendPhase g rel asn st))
    (hproc : ∀ asn st, P st → P (process_messages dec rov asn st)) :
    ∀ (ranks : List (List Int)) (st : SimState), P st → P (phase2Go dec rov g ranks st) := by
  intro ranks
  induction ranks with
  | nil => intro st h; exact h
  | cons group rest ih =>
    intro st h
    unfold phase2Go
    exact ih _ (inv_foldl _ group (fun st a hp => hproc a st hp) _
      (inv_foldl _ group (fun st a hp => hsend peerToPeer a st hp) st h))

theorem inv_phase3Go {P : SimState → Prop} (dec : Route → Route → Int → Bool)
    (rov : List Int) (g : ASGraph)
    (hsend : ∀ rel asn st, P st → P (sendPhase g rel asn st))
    (hproc : ∀ asn st, P st → P (process_messages dec rov asn st)) :
    ∀ (ranks : List (List Int)) (st : SimState), P st → P (phase3Go dec rov g ranks st) := by
  intro ranks
  induction ranks with
  | nil => intro st h; exact h
  | cons group rest ih =>
    intro st h
    unfold phase3Go
    have h1 := inv_foldl _ group (fun st a hp => hsend providerToCustomer a st hp) st h
    cases rest with
    | nil => exact ih _ h1
    | cons prev rest' =>
      exact ih _ (inv_foldl _ prev (fun st a hp => hproc a st hp) _ h1)

theorem inv_runIteration {P : SimState → Prop} (dec : Route → Route → Int → Bool)
    (rov : List Int) (g : ASGraph)
    (hsend : ∀ rel asn st, P st → P (sendPhase g rel asn st))
    (hproc : ∀ asn st, P st → P (process_messages dec rov asn st))
    (ranks : List (List Int)) (st : SimState) (h : P st) :
    P (runIteration dec rov g ranks st) :=
  inv_phase3Go dec rov g hsend hproc _ _
    (inv_phase2Go dec rov g hsend hproc _ _
      (inv_phase1Go dec rov g hsend hproc _ _ h))

theorem inv_propagateLoop {P : SimState → Prop} (dec : Route → Route → Int → Bool)
    (rov : List Int) (g : ASGraph)
    (hsend : ∀ rel asn st, P st → P (sendPhase g rel asn st))
    (hproc : ∀ asn st, P st → P (process_messages dec rov asn st))
    (ranks : List (List Int)) :
    ∀ (fuel prev : Nat) (st : SimState), P st →
      P (propagateLoop dec rov g ranks fuel prev st).2 := by
  intro fuel
  induction fuel with
  | zero => intro prev st h; exact h
  | succ fuel ih =>
    intro prev st h
    unfold propagateLoop
    have h1 := inv_runIteration dec rov g hsend hproc ranks st h
    by_cases hc : totalRoutes (runIteration dec rov g ranks st) = prev
    · simpa [hc] using h1
    · by_cases hf : fuel = 0
      · simpa [hc, hf] using h1
      · simpa [hc, hf] using ih _ _ h1

theorem inv_propagate {P : SimState → Prop} (dec : Route → Route → Int → Bool)
    (rov : List Int) (g : ASGraph)
    (hsend : ∀ rel asn st, P st → P (sendPhase g rel asn st))
    (hproc : ∀ asn st, P st → P (process_messages dec rov asn st))
    (st : SimState) (h : P st) : P (propagate dec rov g st).2 :=
  inv_propagateLoop dec rov g hsend hproc _ 20 0 st h

/-- C4.  Loop-freedom: the invariant "every route installed in any RIB and
every pending route has a duplicate-free AS path" is established by
seeding and preserved by the whole propagation run (and hence holds at
every intermediate point, each primitive preserving it); moreover
`send_route_to_neighbor` is the identity whenever the receiver's ASN
already appears on the route's path, for every export relation — i.e. the
suppression precedes the export-policy check and does not depend on its
outcome. -/
theorem loop_freedom_C4 :
    (∀ (dec : Route → Route → Int → Bool) (rov : List Int) (g : ASGraph) (st : SimState),
      NodupInv st → NodupInv (propagate dec rov g st).2) ∧
    (∀ (origin : Int) (pfx : String) (flag : Bool) (st : SimState),
      NodupInv st → NodupInv (seed_announcement origin pfx flag st)) ∧
    (∀ (receiver : Int) (route : Route) (rel : RelationType) (st : SimState),
      receiver ∈ route.as_path → send_route_to_neighbor receiver route rel st = st) := by
  refine ⟨?_, ?_, ?_⟩
  · intro dec rov g st h
    exact inv_propagate dec rov g
      (fun rel asn st hp => RouteInv_sendPhase nodup_SendStable g rel asn st hp)
      (fun asn st hp => RouteInv_process dec rov asn st hp) st h
  · intro origin pfx flag st h
    unfold seed_announcement
    refine ⟨?_, h.2⟩
    intro e he
    rcases mem_ribInsert _ _ _ _ he with h' | h'
    · subst h'; simp
    · exact h.1 e h'
  · intro receiver route rel st hmem
    unfold send_route_to_neighbor
    simp [hmem]

/-- Closed witness for C4: a concrete seeded run through `propagate`, a
concrete seed, and a concrete suppressed send. -/
theorem loop_freedom_C4_witness :
    (NodupInv ⟨[((1, "p"), ⟨"p", [1], learnedFromCustomer, false⟩)], []⟩ ∧
      NodupInv (propagate (better_route []) []
        (ASGraph.add_relationship ⟨[], []⟩ 1 2 providerToCustomer)
        ⟨[((1, "p"), ⟨"p", [1], learnedFromCustomer, false⟩)], []⟩).2) ∧
    ((2 : Int) ∈ [(2 : Int), 1] ∧
      send_route_to_neighbor 2 ⟨"p", [2, 1], learnedFromCustomer, false⟩
        customerToProvider ⟨[], []⟩ = ⟨[], []⟩) := by
  have hinv : NodupInv ⟨[((1, "p"), ⟨"p", [1], learnedFromCustomer, false⟩)], []⟩ := by
    constructor
    · intro e he
      simp only [List.mem_singleton] at he
      subst he
      decide
    · intro r hp
      obtain ⟨e, he, _⟩ := hp
      simp at he
  refine ⟨⟨hinv, loop_freedom_C4.1 _ _ _ _ hinv⟩, by decide, ?_⟩
  exact loop_freedom_C4.2.2 2 ⟨"p", [2, 1], learnedFromCustomer, false⟩
    customerToProvider ⟨[], []⟩ (by decide)

/-! ### C6: origin preservation -/

/-- Per-route origin/ROV-tag predicate for one seeded prefix: any route
carrying prefix `pfx0` ends in `origin` and carries `flag`. -/
def TailQ (pfx0 : String) (origin : Int) (flag : Bool) (r : Route) : Prop :=
  r.pfx = pfx0 → (r.as_path.getLast? = some origin ∧ r.rov_invalid = flag)

/-- Origin-preservation invariant over the whole state. -/
def OriginInv (pfx0 : String) (origin : Int) (flag : Bool) (st : SimState) : Prop :=
  RouteInv (TailQ pfx0 origin flag) st

theorem getLast?_cons_of_ne_nil {a : Int} {l : List Int} (h : l ≠ []) :
    (a :: l).getLast? = l.getLast? := by
  cases l with
  | nil => exact absurd rfl h
  | cons b t => simp [List.getLast?_cons_cons]

theorem tailQ_SendStable (pfx0 : String) (origin : Int) (flag : Bool) :
    SendStable (TailQ pfx0 origin flag) := by
  intro receiver route rel hr _
  intro hpfx
  simp only [Route.prepend] at hpfx ⊢
  obtain ⟨hlast, hflag⟩ := hr hpfx
  have hne : route.as_path ≠ [] := by
    intro hnil
    rw [hnil] at hlast
    simp at hlast
  exact ⟨by rw [getLast?_cons_of_ne_nil hne]; exact hlast, hflag⟩

/-- C6.  Origin preservation: if every route for prefix `pfx0` in the
state ends in `origin` and carries ROV flag `flag` (as after seeding
`pfx0` by the single announcement `(origin, pfx0, flag)`), the whole
propagation run preserves this; seeding preserves it as long as no
conflicting seed for the same prefix is made; and the clone built by
`send_route_to_neighbor` keeps the tail of the path, the `rov_invalid`
field and the prefix of the route it copies. -/
theorem origin_preservation_C6 :
    (∀ (pfx0 : String) (origin : Int) (flag : Bool) (dec : Route → Route → Int → Bool)
        (rov : List Int) (g : ASGraph) (st : SimState),
      OriginInv pfx0 origin flag st →
        OriginInv pfx0 origin flag (propagate dec rov g st).2) ∧
    (∀ (pfx0 : String) (origin : Int) (flag : Bool) (origin' : Int) (pfx' : String)
        (flag' : Bool) (st : SimState),
      (pfx' = pfx0 → origin' = origin ∧ flag' = flag) →
      OriginInv pfx0 origin flag st →
        OriginInv pfx0 origin flag (seed_announcement origin' pfx' flag' st)) ∧
    (∀ (receiver : Int) (route : Route), route.as_path ≠ [] →
      ((route.prepend receiver).as_path.getLast? = route.as_path.getLast? ∧
        (route.prepend receiver).rov_invalid = route.rov_invalid ∧
        (route.prepend receiver).pfx = route.pfx)) := by
  refine ⟨?_, ?_, ?_⟩
  · intro pfx0 origin flag dec rov g st h
    exact inv_propagate dec rov g
      (fun rel asn st hp => RouteInv_sendPhase (tailQ_SendStable pfx0 origin flag) g rel asn st hp)
      (fun asn st hp => RouteInv_process dec rov asn st hp) st h
  · intro pfx0 origin flag origin' pfx' flag' st hcond h
    unfold seed_announcement
    refine ⟨?_, h.2⟩
    intro e he
    rcases mem_ribInsert _ _ _ _ he with h' | h'
    · subst h'
      intro hpfx
      simp only at hpfx
      obtain ⟨ho, hf⟩ := hcond hpfx
      subst ho; subst hf
      simp
    · exact h.1 e h'
  · intro receiver route hne
    exact ⟨getLast?_cons_of_ne_nil hne, rfl, rfl⟩

/-- Closed witness for C6: the empty state satisfies the invariant, a
concrete seed preserves it, a concrete run preserves it, and the clone
fact at a concrete route. -/
theorem origin_preservation_C6_witness :
    (OriginInv "p" 1 false (seed_announcement 1 "p" false ⟨[], []⟩) ∧
      OriginInv "p" 1 false
        (propagate (better_route []) []
          (ASGraph.add_relationship ⟨[], []⟩ 1 2 providerToCustomer)
          (seed_announcement 1 "p" false ⟨[], []⟩)).2) ∧
    (([(2 : Int), 1] : List Int) ≠ [] ∧
      ((⟨"p", [2, 1], learnedFromCustomer, false⟩ : Route).prepend 3).as_path.getLast? =
        (⟨"p", [2, 1], learnedFromCustomer, false⟩ : Route).as_path.getLast?) := by
  have hempty : OriginInv "p" 1 false ⟨[], []⟩ := by
    constructor
    · intro e he; simp at he
    · intro r hp; obtain ⟨e, he, _⟩ := hp; simp at he
  have hseed : OriginInv "p" 1 false (seed_announcement 1 "p" false ⟨[], []⟩) :=
    origin_preservation_C6.2.1 "p" 1 false 1 "p" false _ (fun _ => ⟨rfl, rfl⟩) hempty
  refine ⟨⟨hseed, origin_preservation_C6.1 "p" 1 false _ _ _ _ hseed⟩, by decide, ?_⟩
  exact (origin_preservation_C6.2.2 3 ⟨"p", [2, 1], learnedFromCustomer, false⟩ (by decide)).1

/-! ### C3: monotone convergence and the return value of `propagate` -/

theorem send_ribs (receiver : Int) (route : Route) (rel : RelationType) (st : SimState) :
    (send_route_to_neighbor receiver route rel st).ribs = st.ribs := by
  unfold send_route_to_neighbor
  by_cases h1 : receiver ∈ route.as_path
  · simp [h1]
  · by_cases h2 : can_export route rel
    · simp [h1, h2]
    · simp [h1, h2]

theorem sendPhase_ribs (g : ASGraph) (rel : RelationType) (asn : Int) (st : SimState) :
    (sendPhase g rel asn st).ribs = st.ribs := by
  unfold sendPhase
  refine @inv_foldl _ (fun s => s.ribs = st.ribs) _ _ ?_ st rfl
  intro st2 e h2
  refine @inv_foldl _ (fun s => s.ribs = st.ribs) _ _ ?_ st2 h2
  intro st3 nb h3
  by_cases hnb : nb.2 = rel
  · simpa [hnb, send_ribs] using h3
  · simpa [hnb] using h3

theorem length_processOne_ge (dec : Route → Route → Int → Bool) (rov : List Int)
    (asn : Int) (ribs : RibMap) (route : Route) :
    ribs.length ≤ (processOne dec rov asn ribs route).length := by
  unfold processOne
  split
  · exact le_rfl
  · split
    · exact length_ribInsert_ge _ _ _
    · split
      · exact length_ribInsert_ge _ _ _
      · exact le_rfl

theorem length_processList_ge (dec : Route → Route → Int → Bool) (rov : List Int)
    (asn : Int) (routes : List Route) :
    ∀ ribs : RibMap, ribs.length ≤ (routes.foldl (processOne dec rov asn) ribs).length := by
  induction routes with
  | nil => intro ribs; exact le_rfl
  | cons r rest ih =>
    intro ribs
    simp only [List.foldl_cons]
    exact le_trans (length_processOne_ge dec rov asn ribs r) (ih _)

theorem totalRoutes_process_ge (dec : Route → Route → Int → Bool) (rov : List Int)
    (asn : Int) (st : SimState) :
    totalRoutes st ≤ totalRoutes (process_messages dec rov asn st) := by
  unfold process_messages totalRoutes
  simp only
  generalize st.queues.filter (fun e => e.1.1 = asn) = pend
  induction pend generalizing st with
  | nil => exact le_rfl
  | cons e rest ih =>
    simp only [List.foldl_cons]
    calc st.ribs.length
        ≤ (e.2.foldl (processOne dec rov asn) st.ribs).length :=
          length_processList_ge dec rov asn e.2 st.ribs
      _ ≤ _ := by
          have := ih ⟨e.2.foldl (processOne dec rov asn) st.ribs, st.queues⟩
          simpa using this

theorem totalRoutes_runIteration_ge (dec : Route → Route → Int → Bool) (rov : List Int)
    (g : ASGraph) (ranks : List (List Int)) (st : SimState) :
    totalRoutes st ≤ totalRoutes (runIteration dec rov g ranks st) := by
  refine @inv_runIteration (fun s => totalRoutes st ≤ totalRoutes s) dec rov g ?_ ?_ ranks st le_rfl
  · intro rel asn st' h
    unfold totalRoutes at h ⊢
    rw [sendPhase_ribs]
    exact h
  · intro asn st' h
    exact le_trans h (totalRoutes_process_ge dec rov asn st')

/-- The totals sequence of a run: `iterTotal ... 0 = 0` (the initial
`prev_total_routes` of the C++ loop) and `iterTotal ... i` for `i ≥ 1` is
the total RIB entry count at the end of the `i`-th iteration. -/
def iterTotal (dec : Route → Route → Int → Bool) (rov : List Int) (g : ASGraph)
    (ranks : List (List Int)) (st : SimState) : Nat → Nat
  | 0 => 0
  | i + 1 => totalRoutes ((runIteration dec rov g ranks)^[i + 1] st)

theorem propagateLoop_true_iff (dec : Route → Route → Int → Bool) (rov : List Int)
    (g : ASGraph) (ranks : List (List Int)) :
    ∀ (fuel prev : Nat) (st : SimState),
      (propagateLoop dec rov g ranks fuel prev st).1 = true ↔
        ∃ i, 1 ≤ i ∧ i ≤ fuel ∧
          totalRoutes ((runIteration dec rov g ranks)^[i] st) =
            (if i = 1 then prev
             else totalRoutes ((runIteration dec rov g ranks)^[i - 1] st)) := by
  intro fuel
  induction fuel with
  | zero =>
    intro prev st
    simp only [propagateLoop]
    constructor
    · intro h; exact absurd h (by simp)
    · rintro ⟨i, h1, h2, _⟩; omega
  | succ fuel ih =>
    intro prev st
    unfold propagateLoop
    by_cases hc : totalRoutes (runIteration dec rov g ranks st) = prev
    · simp only [hc, if_pos rfl]
      constructor
      · intro _
        exact ⟨1, le_rfl, by omega, by simpa using hc⟩
      · intro _; rfl
    · by_cases hf : fuel = 0
      · subst hf
        simp only [hc, if_neg hc, if_pos rfl]
        constructor
        · intro h; exact absurd h (by simp)
        · rintro ⟨i, h1, h2, h3⟩
          have : i = 1 := by omega
          subst this
          simp only [if_pos rfl] at h3
          exact absurd (by simpa using h3) hc
      · simp only [if_neg hc, if_neg hf]
        rw [ih]
        constructor
        · rintro ⟨i, h1, h2, h3⟩
          refine ⟨i + 1, by omega, by omega, ?_⟩
          rw [if_neg (by omega)]
          rcases Nat.exists_eq_add_of_le h1 with ⟨j, hj⟩
          by_cases hi1 : i = 1
          · subst hi1
            simp only [if_pos rfl] at h3
            simpa [Function.iterate_succ_apply] using h3
          · rw [if_neg hi1] at h3
            have h4 : i + 1 - 1 = (i - 1) + 1 := by omega
            rw [h4]
            simpa [Function.iterate_succ_apply] using h3
        · rintro ⟨i, h1, h2, h3⟩
          have hi1 : i ≠ 1 := by
            intro h
            subst h
            simp only [if_pos rfl] at h3
            exact hc (by simpa using h3)
          rw [if_neg hi1] at h3
          refine ⟨i - 1, by omega, by omega, ?_⟩
          have e1 : (runIteration dec rov g ranks)^[i - 1] (runIteration dec rov g ranks st)
              = (runIteration dec rov g ranks)^[i] st := by
            conv_rhs => rw [show i = (i - 1) + 1 by omega]
            rw [Function.iterate_succ_apply]
          by_cases hi2 : i = 2
          · subst hi2
            simp only [show (2 : Nat) - 1 = 1 from rfl, if_pos rfl]
            rw [e1]
            simpa [Function.iterate_succ_apply] using h3
          · rw [if_neg (show ¬ (i - 1 = 1) by omega)]
            have e2 : (runIteration dec rov g ranks)^[i - 1 - 1] (runIteration dec rov g ranks st)
                = (runIteration dec rov g ranks)^[i - 1] st := by
              conv_rhs => rw [show i - 1 = (i - 1 - 1) + 1 by omega]
              rw [Function.iterate_succ_apply]
            rw [e1, e2]
            exact h3

/-- C3.  Monotone convergence: the total RIB entry count never decreases
across an iteration (first conjunct, for every state, hence across every
consecutive pair of iterations of a run); and `propagate` returns `true`
exactly when some iteration `i ≤ 20` ends with the same total as the
previous one (`iterTotal` with the C++ initialisation `prev = 0` before
the first iteration), returning `false` when the 20th iteration ends
without the total being stable. -/
theorem monotone_convergence_C3 :
    (∀ (dec : Route → Route → Int → Bool) (rov : List Int) (g : ASGraph)
        (ranks : List (List Int)) (st : SimState),
      totalRoutes st ≤ totalRoutes (runIteration dec rov g ranks st)) ∧
    (∀ (dec : Route → Route → Int → Bool) (rov : List Int) (g : ASGraph) (st : SimState),
      (propagate dec rov g st).1 = true ↔
        ∃ i, 1 ≤ i ∧ i ≤ 20 ∧
          iterTotal dec rov g (flatten_graph g).2 st i =
            iterTotal dec rov g (flatten_graph g).2 st (i - 1)) := by
  constructor
  · exact totalRoutes_runIteration_ge
  · intro dec rov g st
    unfold propagate
    rw [propagateLoop_true_iff]
    constructor
    · rintro ⟨i, h1, h2, h3⟩
      refine ⟨i, h1, h2, ?_⟩
      rcases Nat.exists_eq_add_of_le h1 with ⟨j, hj⟩
      by_cases hi1 : i = 1
      · subst hi1
        simpa [iterTotal] using h3
      · rw [if_neg hi1] at h3
        have h4 : i = (i - 1) + 1 := by omega
        have h5 : i - 1 = (i - 1 - 1) + 1 := by omega
        rw [h4, iterTotal, ← h4, h5, iterTotal, ← h5]
        exact h3
    · rintro ⟨i, h1, h2, h3⟩
      refine ⟨i, h1, h2, ?_⟩
      by_cases hi1 : i = 1
      · subst hi1
        simpa [iterTotal] using h3
      · rw [if_neg hi1]
        have h4 : i = (i - 1) + 1 := by omega
        have h5 : i - 1 = (i - 1 - 1) + 1 := by omega
        rw [h4, iterTotal, ← h4, h5, iterTotal, ← h5] at h3
        exact h3

/-! ### C7: the pairwise ROV clause -/

/-- RIB-side ROV invariant: every route installed at an ROV-enabled AS is
valid.  Queued routes at ROV ASes may be invalid — they are dropped at
processing time, before any comparison. -/
def RibOk (rov : List Int) (ribs : RibMap) : Prop :=
  ∀ e ∈ ribs, e.1.1 ∈ rov → e.2.rov_invalid = false

/-- State-level version of `RibOk`. -/
def RovRibInv (rov : List Int) (st : SimState) : Prop :=
  RibOk rov st.ribs

theorem ribFind_mem (m : RibMap) (k : Int × String) (r : Route)
    (h : ribFind m k = some r) : ∃ e ∈ m, e.1 = k ∧ e.2 = r := by
  unfold ribFind at h
  cases hf : m.find? (fun e => decide (e.1 = k)) with
  | none => rw [hf] at h; exact absurd h (by simp)
  | some e =>
    rw [hf] at h
    refine ⟨e, List.mem_of_find?_eq_some hf, ?_, by simpa using h⟩
    have := List.find?_some hf
    simpa using this

theorem better_route_eq_noRov (rov : List Int) (n e : Route) (d : Int)
    (h : d ∈ rov → n.rov_invalid = e.rov_invalid) :
    better_route rov n e d = better_route_noRov n e := by
  unfold better_route better_route_noRov
  rw [if_neg]
  rintro ⟨hd, hne⟩
  exact hne (h hd)

theorem RibOk_ribInsert (rov : List Int) (ribs : RibMap) (asn : Int) (pfx : String)
    (route : Route) (h : RibOk rov ribs) (hroute : asn ∈ rov → route.rov_invalid = false) :
    RibOk rov (ribInsert (asn, pfx) route ribs) := by
  intro e he
  rcases mem_ribInsert _ _ _ _ he with h' | h'
  · subst h'; exact hroute
  · exact h e h'

theorem RibOk_processOne (dec : Route → Route → Int → Bool) (rov : List Int)
    (asn : Int) (ribs : RibMap) (route : Route) (h : RibOk rov ribs) :
    RibOk rov (processOne dec rov asn ribs route) := by
  unfold processOne
  split
  · exact h
  · rename_i hdrop
    have hroute : asn ∈ rov → route.rov_invalid = false := by
      intro hmem
      by_cases hr : route.rov_invalid
      · exact absurd ⟨hmem, hr⟩ hdrop
      · simpa using hr
    split
    · exact RibOk_ribInsert rov ribs asn route.pfx route h hroute
    · split
      · exact RibOk_ribInsert rov ribs asn route.pfx route h hroute
      · exact h

theorem processOne_eq (rov : List Int) (asn : Int) (ribs : RibMap) (route : Route)
    (h : RibOk rov ribs) :
    processOne (better_route rov) rov asn ribs route
      = processOne (fun n e _ => better_route_noRov n e) rov asn ribs route := by
  unfold processOne
  by_cases hdrop : asn ∈ rov ∧ route.rov_invalid
  · rw [if_pos hdrop, if_pos hdrop]
  · rw [if_neg hdrop, if_neg hdrop]
    have hroute : asn ∈ rov → route.rov_invalid = false := by
      intro hmem
      by_cases hr : route.rov_invalid
      · exact absurd ⟨hmem, hr⟩ hdrop
      · simpa using hr
    cases hfind : ribFind ribs (asn, route.pfx) with
    | none => rfl
    | some existing =>
      obtain ⟨e, hmem, hk, hv⟩ := ribFind_mem ribs _ _ hfind
      have hexist : asn ∈ rov → existing.rov_invalid = false := by
        intro hd
        have := h e hmem (by rw [hk]; exact hd)
        rw [hv] at this
        exact this
      have hdec : better_route rov route existing asn = better_route_noRov route existing := by
        refine better_route_eq_noRov rov route existing asn ?_
        intro hd
        rw [hroute hd, hexist hd]
      simp only [hdec]

theorem processOne_eq_ok (rov : List Int) (asn : Int) (ribs : RibMap) (route : Route)
    (h : RibOk rov ribs) :
    processOne (better_route rov) rov asn ribs route
      = processOne (fun n e _ => better_route_noRov n e) rov asn ribs route
    ∧ RibOk rov (processOne (better_route rov) rov asn ribs route) :=
  ⟨processOne_eq rov asn ribs route h, RibOk_processOne _ rov asn ribs route h⟩

theorem processList_eq_ok (rov : List Int) (asn : Int) (routes : List Route) :
    ∀ ribs : RibMap, RibOk rov ribs →
      routes.foldl (processOne (better_route rov) rov asn) ribs
        = routes.foldl (processOne (fun n e _ => better_route_noRov n e) rov asn) ribs
      ∧ RibOk rov (routes.foldl (processOne (better_route rov) rov asn) ribs) := by
  induction routes with
  | nil => intro ribs h; exact ⟨rfl, h⟩
  | cons r rest ih =>
    intro ribs h
    simp only [List.foldl_cons]
    obtain ⟨heq, hok⟩ := processOne_eq_ok rov asn ribs r h
    rw [← heq]
    exact ih _ hok

theorem processPending_eq_ok (rov : List Int) (asn : Int)
    (pend : List ((Int × String) × List Route)) :
    ∀ ribs : RibMap, RibOk rov ribs →
      pend.foldl (fun ribs e => e.2.foldl (processOne (better_route rov) rov asn) ribs) ribs
        = pend.foldl
            (fun ribs e => e.2.foldl (processOne (fun n e _ => better_route_noRov n e) rov asn) ribs)
            ribs
      ∧ RibOk rov
          (pend.foldl (fun ribs e => e.2.foldl (processOne (better_route rov) rov asn) ribs) ribs) := by
  induction pend with
  | nil => intro ribs h; exact ⟨rfl, h⟩
  | cons e rest ih =>
    intro ribs h
    simp only [List.foldl_cons]
    obtain ⟨heq, hok⟩ := processList_eq_ok rov asn e.2 ribs h
    rw [← heq]
    exact ih _ hok

theorem process_messages_def (dec : Route → Route → Int → Bool) (rov : List Int)
    (asn : Int) (st : SimState) :
    process_messages dec rov asn st =
      ⟨(st.queues.filter (fun e => e.1.1 = asn)).foldl
          (fun ribs e => e.2.foldl (processOne dec rov asn) ribs) st.ribs,
        st.queues.filter (fun e => ¬ e.1.1 = asn)⟩ := rfl

theorem process_eq_ok (rov : List Int) (asn : Int) (st : SimState) (h : RovRibInv rov st) :
    process_messages (better_route rov) rov asn st
      = process_messages (fun n e _ => better_route_noRov n e) rov asn st
    ∧ RovRibInv rov (process_messages (better_route rov) rov asn st) := by
  obtain ⟨heq, hok⟩ :=
    processPending_eq_ok rov asn (st.queues.filter (fun e => e.1.1 = asn)) st.ribs h
  constructor
  · rw [process_messages_def, process_messages_def, heq]
  · rw [process_messages_def]
    exact hok

theorem RovRibInv_sendPhase (rov : List Int) (g : ASGraph) (rel : RelationType)
    (asn : Int) (st : SimState) (h : RovRibInv rov st) :
    RovRibInv rov (sendPhase g rel asn st) := by
  unfold RovRibInv RibOk
  rw [sendPhase_ribs]
  exact h

theorem sendGroup_eq_ok (rov : List Int) (g : ASGraph) (rel : RelationType)
    (group : List Int) (st : SimState) (h : RovRibInv rov st) :
    RovRibInv rov (group.foldl (fun s a => sendPhase g rel a s) st) :=
  @inv_foldl _ (RovRibInv rov) _ group
    (fun st' a h' => RovRibInv_sendPhase rov g rel a st' h') st h

theorem processGroup_eq_ok (rov : List Int) (group : List Int) :
    ∀ st : SimState, RovRibInv rov st →
      group.foldl (fun s a => process_messages (better_route rov) rov a s) st
        = group.foldl (fun s a => process_messages (fun n e _ => better_route_noRov n e) rov a s) st
      ∧ RovRibInv rov
          (group.foldl (fun s a => process_messages (better_route rov) rov a s) st) := by
  induction group with
  | nil => intro st h; exact ⟨rfl, h⟩
  | cons a rest ih =>
    intro st h
    simp only [List.foldl_cons]
    obtain ⟨heq, hok⟩ := process_eq_ok rov a st h
    rw [← heq]
    exact ih _ hok

theorem phase1Go_cons_nil (dec : Route → Route → Int → Bool) (rov : List Int)
    (g : ASGraph) (group : List Int) (st : SimState) :
    phase1Go dec rov g [group] st =
      group.foldl (fun s a => sendPhase g customerToProvider a s) st := rfl

theorem phase1Go_cons_cons (dec : Route → Route → Int → Bool) (rov : List Int)
    (g : ASGraph) (group next : List Int) (rest : List (List Int)) (st : SimState) :
    phase1Go dec rov g (group :: next :: rest) st =
      phase1Go dec rov g (next :: rest)
        (next.foldl (fun s a => process_messages dec rov a s)
          (group.foldl (fun s a => sendPhase g customerToProvider a s) st)) := rfl

theorem phase2Go_cons (dec : Route → Route → Int → Bool) (rov : List Int)
    (g : ASGraph) (group : List Int) (rest : List (List Int)) (st : SimState) :
    phase2Go dec rov g (group :: rest) st =
      phase2Go dec rov g rest
        (group.foldl (fun s a => process_messages dec rov a s)
          (group.foldl (fun s a => sendPhase g peerToPeer a s) st)) := rfl

theorem phase3Go_cons_nil (dec : Route → Route → Int → Bool) (rov : List Int)
    (g : ASGraph) (group : List Int) (st : SimState) :
    phase3Go dec rov g [group] st =
      group.foldl (fun s a => sendPhase g providerToCustomer a s) st := rfl

theorem phase3Go_cons_cons (dec : Route → Route → Int → Bool) (rov : List Int)
    (g : ASGraph) (group prev : List Int) (rest : List (List Int)) (st : SimState) :
    phase3Go dec rov g (group :: prev :: rest) st =
      phase3Go dec rov g (prev :: rest)
        (prev.foldl (fun s a => process_messages dec rov a s)
          (group.foldl (fun s a => sendPhase g providerToCustomer a s) st)) := rfl

theorem phase1Go_eq_ok (rov : List Int) (g : ASGraph) :
    ∀ (ranks : List (List Int)) (st : SimState), RovRibInv rov st →
      phase1Go (better_route rov) rov g ranks st
        = phase1Go (fun n e _ => better_route_noRov n e) rov g ranks st
      ∧ RovRibInv rov (phase1Go (better_route rov) rov g ranks st) := by
  intro ranks
  induction ranks with
  | nil => intro st h; exact ⟨rfl, h⟩
  | cons group rest ih =>
    intro st h
    have h1 := sendGroup_eq_ok rov g customerToProvider group st h
    cases rest with
    | nil =>
      rw [phase1Go_cons_nil, phase1Go_cons_nil]
      exact ⟨rfl, h1⟩
    | cons next rest' =>
      rw [phase1Go_cons_cons, phase1Go_cons_cons]
      obtain ⟨heq, hok⟩ := processGroup_eq_ok rov next _ h1
      rw [← heq]
      exact ih _ hok

theorem phase2Go_eq_ok (rov : List Int) (g : ASGraph) :
    ∀ (ranks : List (List Int)) (st : SimState), RovRibInv rov st →
      phase2Go (better_route rov) rov g ranks st
        = phase2Go (fun n e _ => better_route_noRov n e) rov g ranks st
      ∧ RovRibInv rov (phase2Go (better_route rov) rov g ranks st) := by
  intro ranks
  induction ranks with
  | nil => intro st h; exact ⟨rfl, h⟩
  | cons group rest ih =>
    intro st h
    have h1 := sendGroup_eq_ok rov g peerToPeer group st h
    rw [phase2Go_cons, phase2Go_cons]
    obtain ⟨heq, hok⟩ := processGroup_eq_ok rov group _ h1
    rw [← heq]
    exact ih _ hok

theorem phase3Go_eq_ok (rov : List Int) (g : ASGraph) :
    ∀ (ranks : List (List Int)) (st : SimState), RovRibInv rov st →
      phase3Go (better_route rov) rov g ranks st
        = phase3Go (fun n e _ => better_route_noRov n e) rov g ranks st
      ∧ RovRibInv rov (phase3Go (better_route rov) rov g ranks st) := by
  intro ranks
  induction ranks with
  | nil => intro st h; exact ⟨rfl, h⟩
  | cons group rest ih =>
    intro st h
    have h1 := sendGroup_eq_ok rov g providerToCustomer group st h
    cases rest with
    | nil =>
      rw [phase3Go_cons_nil, phase3Go_cons_nil]
      exact ⟨rfl, h1⟩
    | cons prev rest' =>
      rw [phase3Go_cons_cons, phase3Go_cons_cons]
      obtain ⟨heq, hok⟩ := processGroup_eq_ok rov prev _ h1
      rw [← heq]
      exact ih _ hok

theorem runIteration_eq_ok (rov : List Int) (g : ASGraph) (ranks : List (List Int))
    (st : SimState) (h : RovRibInv rov st) :
    runIteration (better_route rov) rov g ranks st
      = runIteration (fun n e _ => better_route_noRov n e) rov g ranks st
    ∧ RovRibInv rov (runIteration (better_route rov) rov g ranks st) := by
  unfold runIteration
  obtain ⟨he1, ho1⟩ := phase1Go_eq_ok rov g ranks st h
  rw [← he1]
  obtain ⟨he2, ho2⟩ := phase2Go_eq_ok rov g ranks _ ho1
  rw [← he2]
  exact phase3Go_eq_ok rov g ranks.reverse _ ho2

theorem propagateLoop_succ (dec : Route → Route → Int → Bool) (rov : List Int)
    (g : ASGraph) (ranks : List (List Int)) (fuel prev : Nat) (st : SimState) :
    propagateLoop dec rov g ranks (fuel + 1) prev st =
      if totalRoutes (runIteration dec rov g ranks st) = prev then
        (true, runIteration dec rov g ranks st)
      else if fuel = 0 then (false, runIteration dec rov g ranks st)
      else propagateLoop dec rov g ranks fuel
        (totalRoutes (runIteration dec rov g ranks st)) (runIteration dec rov g ranks st) := rfl

theorem propagateLoop_eq_ok (rov : List Int) (g : ASGraph) (ranks : List (List Int)) :
    ∀ (fuel prev : Nat) (st : SimState), RovRibInv rov st →
      propagateLoop (better_route rov) rov g ranks fuel prev st
        = propagateLoop (fun n e _ => better_route_noRov n e) rov g ranks fuel prev st
      ∧ RovRibInv rov (propagateLoop (better_route rov) rov g ranks fuel prev st).2 := by
  intro fuel
  induction fuel with
  | zero => intro prev st h; exact ⟨rfl, h⟩
  | succ fuel ih =>
    intro prev st h
    obtain ⟨heq, hok⟩ := runIteration_eq_ok rov g ranks st h
    rw [propagateLoop_succ, propagateLoop_succ, ← heq]
    by_cases hc : totalRoutes (runIteration (better_route rov) rov g ranks st) = prev
    · rw [if_pos hc, if_pos hc]
      exact ⟨rfl, hok⟩
    · by_cases hf : fuel = 0
      · rw [if_neg hc, if_neg hc, if_pos hf, if_pos hf]
        exact ⟨rfl, hok⟩
      · rw [if_neg hc, if_neg hc, if_neg hf, if_neg hf]
        exact ih _ _ hok

/-- C7 counterexample.  The claim asserts that at an ROV-enabled deciding
AS the two compared routes always agree on `rov_invalid` and that removing
the ROV clause would not change any RIB.  On the concrete input
(1 provider of 2, ROV set {2}, seeds `(2, p, invalid)` then
`(1, p, valid)`) the seeded invalid incumbent at ROV-enabled AS 2 is
compared with the valid provider route, the ROV clause decides the
comparison, and the final RIBs differ between the engine with the clause
and the engine without it. -/
theorem rov_clause_C7_counterexample :
    (propagate (better_route [2]) [2]
        (ASGraph.add_relationship ⟨[], []⟩ 1 2 providerToCustomer)
        (seed_announcement 1 "p" false (seed_announcement 2 "p" true ⟨[], []⟩))).2.ribs ≠
    (propagate (fun n e _ => better_route_noRov n e) [2]
        (ASGraph.add_relationship ⟨[], []⟩ 1 2 providerToCustomer)
        (seed_announcement 1 "p" false (seed_announcement 2 "p" true ⟨[], []⟩))).2.ribs := by
  decide

/-- C7 as amended.  The ROV clause can decide a comparison only against an
`rov_invalid` incumbent installed at an ROV-enabled AS, which only seeding
can produce there (the ingress drop excludes the queue path).  For every
run whose starting state installs no invalid route at an ROV-enabled AS,
the invariant "routes installed at ROV-enabled ASes are valid" holds
throughout, every comparison at an ROV-enabled AS is between routes
agreeing on `rov_invalid` (so the clause never decides it), and the run
with the clause removed produces the identical result and RIBs. -/
theorem rov_clause_C7_amended :
    (∀ (rov : List Int) (g : ASGraph) (st : SimState), RovRibInv rov st →
      propagate (better_route rov) rov g st
        = propagate (fun n e _ => better_route_noRov n e) rov g st
      ∧ RovRibInv rov (propagate (better_route rov) rov g st).2) ∧
    (∀ (rov : List Int) (n e : Route) (d : Int),
      (d ∈ rov → n.rov_invalid = e.rov_invalid) →
        better_route rov n e d = better_route_noRov n e) := by
  constructor
  · intro rov g st h
    exact propagateLoop_eq_ok rov g (flatten_graph g).2 20 0 st h
  · exact better_route_eq_noRov

/-- Closed witness for the amended C7 at a concrete input: same topology
as the counterexample but with only valid seeds. -/
theorem rov_clause_C7_amended_witness :
    (RovRibInv [2]
        (seed_announcement 1 "p" false (seed_announcement 2 "p" false ⟨[], []⟩)) ∧
      propagate (better_route [2]) [2]
          (ASGraph.add_relationship ⟨[], []⟩ 1 2 providerToCustomer)
          (seed_announcement 1 "p" false (seed_announcement 2 "p" false ⟨[], []⟩))
        = propagate (fun n e _ => better_route_noRov n e) [2]
            (ASGraph.add_relationship ⟨[], []⟩ 1 2 providerToCustomer)
            (seed_announcement 1 "p" false (seed_announcement 2 "p" false ⟨[], []⟩))) ∧
    ((2 : Int) ∈ ([2] : List Int) →
        (⟨"q", [3], learnedFromPeer, false⟩ : Route).rov_invalid =
          (⟨"q", [4], learnedFromCustomer, false⟩ : Route).rov_invalid) ∧
      better_route [2] ⟨"q", [3], learnedFromPeer, false⟩
          ⟨"q", [4], learnedFromCustomer, false⟩ 2
        = better_route_noRov ⟨"q", [3], learnedFromPeer, false⟩
            ⟨"q", [4], learnedFromCustomer, false⟩ := by
  have hinv : RovRibInv [2]
      (seed_announcement 1 "p" false (seed_announcement 2 "p" false ⟨[], []⟩)) := by
    intro e he
    intro _
    rcases mem_ribInsert _ _ _ _ he with h' | h'
    · subst h'; rfl
    · rcases mem_ribInsert _ _ _ _ h' with h'' | h''
      · subst h''; rfl
      · simp at h''
  refine ⟨⟨hinv, (rov_clause_C7_amended.1 [2] _ _ hinv).1⟩, fun _ => rfl, ?_⟩
  exact rov_clause_C7_amended.2 [2] _ _ 2 (fun _ => rfl)

/-! ### C8: missing input files -/

/-- C8 counterexample.  The claim asserts that a missing file is fatal for
each of the three inputs.  With relationships and announcements readable
but the ROV-ASN file failing to open (`some none`), the run completes with
exit code 0 and writes `ribs.csv`. -/
theorem missing_file_C8_counterexample :
    (runMain (some ["1|2|-1"]) (some ["origin,pfx,rov", "1,p,False"]) (some none)).1 = 0 ∧
    (runMain (some ["1|2|-1"]) (some ["origin,pfx,rov", "1,p,False"]) (some none)).2.isSome = true := by
  constructor <;> decide

/-- C8 as amended.  A missing relationships file or a missing
announcements file is fatal: exit code 1 and no `ribs.csv`.  A missing
ROV-ASN file is only a warning: the run continues exactly as with an
empty ROV-ASN file (empty ROV set), and can succeed. -/
theorem missing_file_C8_amended :
    (∀ (ann : Option (List String)) (rovArg : Option (Option (List String))),
      runMain none ann rovArg = (1, none)) ∧
    (∀ (rel : List String) (rovArg : Option (Option (List String))),
      runMain (some rel) none rovArg = (1, none)) ∧
    (∀ (rel ann : List String),
      runMain (some rel) (some ann) (some none)
        = runMain (some rel) (some ann) (some (some []))) := by
  refine ⟨fun ann rovArg => rfl, ?_, fun rel ann => rfl⟩
  intro rel rovArg
  by_cases hc : has_customer_provider_cycle (load_from_file_lines rel) = true
  · simp [runMain, hc]
  · simp [runMain, hc]

/-! ### C9: malformed announcement rows -/

/-- C9 counterexample.  The claim asserts every malformed row is skipped
and the run proceeds, including rows with a non-numeric origin-ASN field.
The row `abc,p,False` splits into three fields but `std::stoi("abc")`
throws `invalid_argument`, so the loader aborts and the whole run fails
with exit code 1 and no output; likewise `std::stoi("2147483648")` (one
past `INT_MAX`) throws `out_of_range` and aborts. -/
theorem malformed_rows_C9_counterexample :
    (loadAnnRows ["abc,p,False", "2,q,true"]).2 = true ∧
    runMain (some ["1|2|-1"]) (some ["origin,pfx,rov", "abc,p,False"]) none = (1, none) ∧
    (loadAnnRows ["2147483648,p,False"]).2 = true ∧
    runMain (some ["1|2|-1"]) (some ["origin,pfx,rov", "2147483648,p,False"]) none
      = (1, none) := by
  refine ⟨by decide, by decide, by decide, by decide⟩

/-- The parse of a single announcement row, when it neither skips nor
throws. -/
def parseAnnRow (row : String) : Option (Int × String × Bool) :=
  match csvSplit3 row with
  | none => none
  | some (f1, f2, f3) =>
    match extractInt f1.toList with
    | none => none
    | some p => some (p.1, f2, truthy f3)

/-- A row is benign when it cannot make `std::stoi` throw: either its
three-way split fails (row skipped) or its origin field starts with an
integer whose value fits in a 32-bit `int` (neither `invalid_argument`
nor `out_of_range`). -/
def rowBenign (row : String) : Bool :=
  match csvSplit3 row with
  | none => true
  | some (f1, _, _) => (extractInt f1.toList).isSome

/-- C9 as amended.  Rows with fewer than three comma-separated fields are
silently skipped; among benign rows (no origin field on which `std::stoi`
throws, i.e. each origin field either fails the split or lexes to a value
within 32-bit `int` range) the loader never aborts and seeds exactly the
rows that parse; but a row whose origin-ASN field has no leading integer
(`invalid_argument`) or lexes to a value outside 32-bit `int` range
(`out_of_range`) makes `std::stoi` throw, aborting the run (see the
counterexample). -/
theorem malformed_rows_C9_amended :
    ∀ rows : List String, (∀ row ∈ rows, rowBenign row = true) →
      (loadAnnRows rows).2 = false ∧
      (loadAnnRows rows).1 = rows.filterMap parseAnnRow := by
  intro rows
  induction rows with
  | nil => intro _; exact ⟨rfl, rfl⟩
  | cons row rest ih =>
    intro hb
    have hbrow : rowBenign row = true := hb row (List.mem_cons_self _ _)
    obtain ⟨ih1, ih2⟩ := ih (fun r hr => hb r (List.mem_cons_of_mem _ hr))
    rw [List.filterMap_cons]
    cases hsplit : csvSplit3 row with
    | none =>
      have hrow : parseAnnRow row = none := by simp only [parseAnnRow, hsplit]
      have hload : loadAnnRows (row :: rest) = loadAnnRows rest := by
        simp only [loadAnnRows, hsplit]
      rw [hload, hrow]
      exact ⟨ih1, ih2⟩
    | some f =>
      obtain ⟨f1, f2, f3⟩ := f
      have hbrow' : (extractInt f1.toList).isSome = true := by
        have : rowBenign row = (extractInt f1.toList).isSome := by
          simp only [rowBenign, hsplit]
        rw [← this]
        exact hbrow
      cases hread : extractInt f1.toList with
      | none => rw [hread] at hbrow'; exact absurd hbrow' (by simp)
      | some p =>
        have hrow : parseAnnRow row = some (p.1, f2, truthy f3) := by
          simp only [parseAnnRow, hsplit, hread]
        have hload : loadAnnRows (row :: rest) =
            ((p.1, f2, truthy f3) :: (loadAnnRows rest).1, (loadAnnRows rest).2) := by
          simp only [loadAnnRows, hsplit, hread]
        rw [hload, hrow]
        exact ⟨ih1, by rw [ih2]⟩

/-- Closed witness for the amended C9: one parsing row, one skipped row. -/
theorem malformed_rows_C9_amended_witness :
    (∀ row ∈ ["1,p,False", "garbage"], rowBenign row = true) ∧
    (loadAnnRows ["1,p,False", "garbage"]).2 = false ∧
    (loadAnnRows ["1,p,False", "garbage"]).1 =
      ["1,p,False", "garbage"].filterMap parseAnnRow := by
  refine ⟨by decide, malformed_rows_C9_amended _ (by decide)⟩

/-! ### C5: rank correctness of `flatten_graph`

Well-formedness required of the graph (all of it holds by construction
for graphs built through `add_relationship`): `all_asns` has no
duplicates, adjacency targets lie in `all_asns`, and the adjacency is
edge-symmetric in the multiset sense (the number of `(p, C2P)` entries at
`c` equals the number of `(c, P2C)` entries at `p`, which is exactly what
the simultaneous insertion of an edge and its inverse produces).
Acyclicity of the customer→provider relation is supplied as a strictly
monotone height measure, which exists for a finite relation iff it has no
cycle. -/

/-- The directed customer→provider step: `c` is a customer of `p`. -/
def CProv (g : ASGraph) (c p : Int) : Prop :=
  (p, customerToProvider) ∈ g.get_neighbors c

/-- The customers of `a`: its outgoing `PROVIDER_TO_CUSTOMER` adjacency
entries. -/
def customersOf (g : ASGraph) (a : Int) : List (Int × RelationType) :=
  (g.get_neighbors a).filter (fun nb => nb.2 = providerToCustomer)

/-- Number of `PROVIDER_TO_CUSTOMER` entries at `a` whose customer has
not yet been drained (is outside `R`).  The running counter of
`flatten_graph` always equals this quantity. -/
def remP2C (g : ASGraph) (a : Int) (R : List Int) : Nat :=
  ((g.get_neighbors a).filter
    (fun nb => nb.2 = providerToCustomer ∧ nb.1 ∉ R)).length

/-- Multiplicity of the customer→provider edge `c → p` in `c`'s
adjacency. -/
def multC2P (g : ASGraph) (c p : Int) : Nat :=
  List.count (p, customerToProvider) (g.get_neighbors c)

/-- Total number of decrements ASN `a` receives while the wave `ws` is
drained. -/
def sumMult (g : ASGraph) (ws : List Int) (a : Int) : Nat :=
  (ws.map (fun c => multC2P g c a)).sum

theorem get_neighbors_cases (g : ASGraph) (a : Int) :
    g.get_neighbors a = [] ∨ ∃ e ∈ g.adjacency, e.1 = a ∧ g.get_neighbors a = e.2 := by
  unfold ASGraph.get_neighbors
  cases hf : g.adjacency.find? (fun e => e.1 = a) with
  | none => exact Or.inl rfl
  | some e =>
    refine Or.inr ⟨e, List.mem_of_find?_eq_some hf, ?_, rfl⟩
    have := List.find?_some hf
    simpa using this

/-- Adjacency-entry closure: derived, fully universal form. -/
theorem nb_closed (g : ASGraph)
    (h : ∀ e ∈ g.adjacency, ∀ nb ∈ e.2, nb.1 ∈ g.all_asns) :
    ∀ a : Int, ∀ nb ∈ g.get_neighbors a, nb.1 ∈ g.all_asns := by
  intro a nb hnb
  rcases get_neighbors_cases g a with hc | ⟨e, he, _, hlist⟩
  · rw [hc] at hnb; exact absurd hnb (by simp)
  · rw [hlist] at hnb
    exact h e he nb hnb

theorem get_neighbors_split (g : ASGraph) (a : Int) :
    (∃ e ∈ g.adjacency, e.1 = a ∧ g.get_neighbors a = e.2) ∨
    (a ∉ g.adjacency.map Prod.fst ∧ g.get_neighbors a = []) := by
  unfold ASGraph.get_neighbors
  cases hf : g.adjacency.find? (fun e => e.1 = a) with
  | none =>
    refine Or.inr ⟨?_, rfl⟩
    intro hmem
    obtain ⟨e, he, hex⟩ := List.mem_map.mp hmem
    have := List.find?_eq_none.mp hf e he
    simp [hex] at this
  | some e =>
    exact Or.inl ⟨e, List.mem_of_find?_eq_some hf,
      by simpa using List.find?_some hf, rfl⟩

/-- Edge symmetry: derived, fully universal form. -/
theorem symm_count (g : ASGraph)
    (hkeys : ∀ e ∈ g.adjacency, ∀ nb ∈ e.2, nb.1 ∈ g.adjacency.map Prod.fst)
    (hpairs : ∀ e ∈ g.adjacency, ∀ e' ∈ g.adjacency,
      List.count (e'.1, customerToProvider) e.2 = List.count (e.1, providerToCustomer) e'.2) :
    ∀ c p : Int, List.count (p, customerToProvider) (g.get_neighbors c)
      = List.count (c, providerToCustomer) (g.get_neighbors p) := by
  intro c p
  rcases get_neighbors_split g c with ⟨e, he, hek, hlist⟩ | ⟨hck, hc⟩
  · rcases get_neighbors_split g p with ⟨e', he', hek', hlist'⟩ | ⟨hpk, hp⟩
    · rw [hlist, hlist', ← hek, ← hek']
      exact hpairs e he e' he'
    · rw [hlist, hp]
      simp only [List.count_nil]
      rw [List.count_eq_zero]
      intro hmem
      exact hpk (hkeys e he _ hmem)
  · rcases get_neighbors_split g p with ⟨e', he', hek', hlist'⟩ | ⟨hpk, hp⟩
    · rw [hc, hlist']
      simp only [List.count_nil]
      symm
      rw [List.count_eq_zero]
      intro hmem
      exact hck (hkeys e' he' _ hmem)
    · rw [hc, hp]
      simp

theorem fupd_self (f : Int → Int) (k v : Int) : fupd f k v k = v := by
  simp [fupd]

theorem fupd_ne (f : Int → Int) (k v a : Int) (h : a ≠ k) : fupd f k v a = f a := by
  simp [fupd, h]

theorem indShiftPushed (cq cr : Nat) (c : Int) (hz : c - 1 = 0) :
    cq + 1 + (if 1 ≤ c - 1 ∧ c - 1 ≤ (cr : Int) then 1 else 0)
      = cq + (if 1 ≤ c ∧ c ≤ ((cr + 1 : Nat) : Int) then 1 else 0) := by
  push_cast
  split_ifs <;> omega

theorem indShiftUnpushed (cq cr : Nat) (c : Int) (hz : ¬ c - 1 = 0) :
    cq + (if 1 ≤ c - 1 ∧ c - 1 ≤ (cr : Int) then 1 else 0)
      = cq + (if 1 ≤ c ∧ c ≤ ((cr + 1 : Nat) : Int) then 1 else 0) := by
  push_cast
  split_ifs <;> omega

theorem indSplitSum (cq m s : Nat) (c : Int) :
    cq + (if 1 ≤ c ∧ c ≤ (m : Int) then 1 else 0)
      + (if 1 ≤ c - (m : Int) ∧ c - (m : Int) ≤ (s : Int) then 1 else 0)
      = cq + (if 1 ≤ c ∧ c ≤ ((m + s : Nat) : Int) then 1 else 0) := by
  push_cast
  split_ifs <;> omega

/-- Effect of draining one adjacency list on the counters and the queue:
every counter drops by the number of matching customer→provider entries,
and `a` is appended exactly once iff its counter passes through 0. -/
theorem foldDrain (l : List (Int × RelationType)) :
    ∀ (counts : Int → Int) (q : List Int),
      (∀ a, (l.foldl drainStep (counts, q)).1 a
          = counts a - (List.count (a, customerToProvider) l : Int)) ∧
      (∀ a, List.count a (l.foldl drainStep (counts, q)).2
          = List.count a q +
            (if 1 ≤ counts a ∧ counts a ≤ (List.count (a, customerToProvider) l : Int)
             then 1 else 0)) := by
  induction l with
  | nil =>
    intro counts q
    constructor
    · intro a; simp
    · intro a
      simp only [List.foldl_nil, List.count_nil, Nat.cast_zero]
      rw [if_neg (by omega)]
      omega
  | cons nb rest ih =>
    intro counts q
    simp only [List.foldl_cons]
    by_cases hrel : nb.2 = customerToProvider
    · have hstep : drainStep (counts, q) nb =
          (fupd counts nb.1 (counts nb.1 - 1),
            if counts nb.1 - 1 = 0 then q ++ [nb.1] else q) := by
        simp [drainStep, hrel]
      rw [hstep]
      obtain ⟨ih1, ih2⟩ := ih (fupd counts nb.1 (counts nb.1 - 1))
        (if counts nb.1 - 1 = 0 then q ++ [nb.1] else q)
      have hnb : nb = (nb.1, customerToProvider) := by
        cases nb
        simpa using hrel
      have hcnt1 : List.count (nb.1, customerToProvider) (nb :: rest)
          = List.count (nb.1, customerToProvider) rest + 1 := by
        conv_lhs => rw [hnb]
        simp [List.count_cons]
      constructor
      · intro a
        rw [ih1 a]
        by_cases ha : a = nb.1
        · rw [ha, fupd_self, hcnt1]
          push_cast
          omega
        · rw [fupd_ne _ _ _ _ ha]
          have hcnt : List.count (a, customerToProvider) (nb :: rest)
              = List.count (a, customerToProvider) rest := by
            conv_lhs => rw [hnb]
            simp [List.count_cons, ha]
          rw [hcnt]
      · intro a
        rw [ih2 a]
        by_cases ha : a = nb.1
        · rw [ha, fupd_self, hcnt1]
          by_cases hz : counts nb.1 - 1 = 0
          · rw [if_pos hz]
            rw [List.count_append]
            have hself : List.count nb.1 [nb.1] = 1 := by simp
            rw [hself]
            exact indShiftPushed _ _ _ hz
          · rw [if_neg hz]
            exact indShiftUnpushed _ _ _ hz
        · have hcnt : List.count (a, customerToProvider) (nb :: rest)
              = List.count (a, customerToProvider) rest := by
            conv_lhs => rw [hnb]
            simp [List.count_cons, ha]
          rw [fupd_ne _ _ _ _ ha, hcnt]
          by_cases hz : counts nb.1 - 1 = 0
          · rw [if_pos hz]
            rw [List.count_append]
            have hz2 : List.count a [nb.1] = 0 := by
              simp [List.count_singleton', ha]
            rw [hz2]
            simp
          · rw [if_neg hz]
    · have hstep : drainStep (counts, q) nb = (counts, q) := by
        simp [drainStep, hrel]
      rw [hstep]
      obtain ⟨ih1, ih2⟩ := ih counts q
      have hno : ∀ a : Int, (a, customerToProvider) ≠ nb := by
        intro a h
        rw [← h] at hrel
        exact hrel rfl
      constructor
      · intro a
        rw [ih1 a]
        have hcnt : List.count (a, customerToProvider) (nb :: rest)
            = List.count (a, customerToProvider) rest := by
          simp [List.count_cons, hno a]
        rw [hcnt]
      · intro a
        rw [ih2 a]
        have hcnt : List.count (a, customerToProvider) (nb :: rest)
            = List.count (a, customerToProvider) rest := by
          simp [List.count_cons, hno a]
        rw [hcnt]

/-- `processWave` in closed form: counters drop by `sumMult`, and the next
wave contains `a` (exactly once) iff `a`'s counter passed through 0. -/
theorem processWave_spec (g : ASGraph) (ws : List Int) :
    ∀ (counts : Int → Int) (q : List Int),
      (∀ a, (ws.foldl (drainNode g) (counts, q)).1 a
          = counts a - (sumMult g ws a : Int)) ∧
      (∀ a, List.count a (ws.foldl (drainNode g) (counts, q)).2
          = List.count a q +
            (if 1 ≤ counts a ∧ counts a ≤ (sumMult g ws a : Int) then 1 else 0)) := by
  induction ws with
  | nil =>
    intro counts q
    constructor
    · intro a; simp [sumMult]
    · intro a
      simp only [List.foldl_nil, sumMult, List.map_nil, List.sum_nil, Nat.cast_zero]
      rw [if_neg (by omega)]
      omega
  | cons c rest ih =>
    intro counts q
    simp only [List.foldl_cons]
    have hdrain := foldDrain (g.get_neighbors c) counts q
    obtain ⟨ihc, ihq⟩ := ih (drainNode g (counts, q) c).1 (drainNode g (counts, q) c).2
    have hsum : ∀ a, sumMult g (c :: rest) a = multC2P g c a + sumMult g rest a := by
      intro a
      simp [sumMult, multC2P]
    constructor
    · intro a
      rw [show rest.foldl (drainNode g) (drainNode g (counts, q) c)
            = rest.foldl (drainNode g) ((drainNode g (counts, q) c).1, (drainNode g (counts, q) c).2)
          from by rw [Prod.mk.eta]]
      rw [ihc a]
      have h1 : (drainNode g (counts, q) c).1 a
          = counts a - (List.count (a, customerToProvider) (g.get_neighbors c) : Int) :=
        hdrain.1 a
      rw [h1, hsum a]
      unfold multC2P
      push_cast
      omega
    · intro a
      rw [show rest.foldl (drainNode g) (drainNode g (counts, q) c)
            = rest.foldl (drainNode g) ((drainNode g (counts, q) c).1, (drainNode g (counts, q) c).2)
          from by rw [Prod.mk.eta]]
      rw [ihq a]
      have h1 : (drainNode g (counts, q) c).1 a
          = counts a - (List.count (a, customerToProvider) (g.get_neighbors c) : Int) :=
        hdrain.1 a
      have h2 : List.count a (drainNode g (counts, q) c).2
          = List.count a q +
            (if 1 ≤ counts a ∧
                counts a ≤ (List.count (a, customerToProvider) (g.get_neighbors c) : Int)
             then 1 else 0) :=
        hdrain.2 a
      rw [h1, h2, hsum a]
      simp only [multC2P]
      exact indSplitSum _ _ _ _

/-- Splitting one newly-drained customer out of the remaining-entries
filter. -/
theorem filterSplitOne (l : List (Int × RelationType)) (R : List Int) (c : Int)
    (hc : c ∉ R) :
    (l.filter (fun nb => nb.2 = providerToCustomer ∧ nb.1 ∉ R)).length
      = (l.filter (fun nb => nb.2 = providerToCustomer ∧ nb.1 ∉ (R ++ [c]))).length
        + List.count (c, providerToCustomer) l := by
  induction l with
  | nil => simp
  | cons nb rest ih =>
    have hcount : List.count (c, providerToCustomer) (nb :: rest)
        = List.count (c, providerToCustomer) rest
          + (if nb = (c, providerToCustomer) then 1 else 0) := by
      simp only [List.count_cons, beq_iff_eq]
    by_cases h1 : nb.2 = providerToCustomer
    · by_cases h2 : nb.1 ∈ R
      · have hne : ¬ nb = (c, providerToCustomer) := by
          intro hh
          rw [hh] at h2
          exact hc h2
        simp only [List.filter_cons, hcount, if_neg hne]
        rw [if_neg (by simp [h2]), if_neg (by simp [h2])]
        omega
      · by_cases h3 : nb.1 = c
        · have heq : nb = (c, providerToCustomer) := by
            cases nb
            simp only at h1 h3
            rw [h1, h3]
          simp only [List.filter_cons, hcount, if_pos heq]
          rw [if_pos (by simp [h1, h2]), if_neg (by simp [h1, h3])]
          simp only [List.length_cons]
          omega
        · have hne : ¬ nb = (c, providerToCustomer) := by
            intro hh
            rw [hh] at h3
            exact h3 rfl
          simp only [List.filter_cons, hcount, if_neg hne]
          rw [if_pos (by simp [h1, h2]), if_pos (by simp [h1, h2, h3])]
          simp only [List.length_cons]
          omega
    · have hne : ¬ nb = (c, providerToCustomer) := by
        intro hh
        rw [hh] at h1
        exact h1 rfl
      simp only [List.filter_cons, hcount, if_neg hne]
      rw [if_neg (by simp [h1]), if_neg (by simp [h1])]
      omega

/-- Sum over the wave of the `(c, P2C)` multiplicities at `a`. -/
def sumMultP (g : ASGraph) (a : Int) (wave : List Int) : Nat :=
  (wave.map (fun c => List.count (c, providerToCustomer) (g.get_neighbors a))).sum

theorem filterSplitMany (g : ASGraph) (a : Int) :
    ∀ (wave R : List Int), wave.Nodup → (∀ c ∈ wave, c ∉ R) →
      remP2C g a R = remP2C g a (R ++ wave) + sumMultP g a wave := by
  intro wave
  induction wave with
  | nil => intro R _ _; simp [sumMultP]
  | cons c rest ih =>
    intro R hnd hdisj
    have hstep := filterSplitOne (g.get_neighbors a) R c (hdisj c (List.mem_cons_self _ _))
    have hih := ih (R ++ [c]) (List.Nodup.of_cons hnd) ?_
    · have hassoc : (R ++ [c]) ++ rest = R ++ (c :: rest) := by
        rw [List.append_assoc, List.singleton_append]
      rw [hassoc] at hih
      unfold remP2C at hstep hih ⊢
      rw [hstep, hih]
      simp only [sumMultP, List.map_cons, List.sum_cons]
      omega
    · intro x hx
      rw [List.mem_append, List.mem_singleton]
      rintro (hr | hc)
      · exact hdisj x (List.mem_cons_of_mem _ hx) hr
      · subst hc
        exact (List.nodup_cons.mp hnd).1 hx

/-- The counter bridge: under edge symmetry, draining a disjoint
duplicate-free wave takes the remaining-customers counter from `R` to
`R ++ wave`. -/
theorem counts_bridge (g : ASGraph)
    (hsym : ∀ c p : Int, List.count (p, customerToProvider) (g.get_neighbors c)
      = List.count (c, providerToCustomer) (g.get_neighbors p))
    (a : Int) (wave R : List Int) (hnd : wave.Nodup) (hdisj : ∀ c ∈ wave, c ∉ R) :
    (remP2C g a R : Int) - sumMult g wave a = remP2C g a (R ++ wave) := by
  have hsum : sumMult g wave a = sumMultP g a wave := by
    unfold sumMult sumMultP multC2P
    congr 1
    exact List.map_congr_left (fun c _ => hsym c a)
  have := filterSplitMany g a wave R hnd hdisj
  rw [hsum]
  omega

/-- Keys already ranked. -/
def keysOf (a2r : List (Int × Nat)) : List Int := a2r.map Prod.fst

theorem keysOf_append (a2r : List (Int × Nat)) (l : List (Int × Nat)) :
    keysOf (a2r ++ l) = keysOf a2r ++ keysOf l := by
  simp [keysOf]

theorem keysOf_mapRank (wave : List Int) (rank : Nat) :
    keysOf (wave.map (fun a => (a, rank))) = wave := by
  simp only [keysOf, List.map_map]
  induction wave with
  | nil => rfl
  | cons w ws ih => simpa using ih

theorem remP2C_mono (g : ASGraph) (a : Int) (R R' : List Int)
    (hsub : ∀ x ∈ R, x ∈ R') : remP2C g a R' ≤ remP2C g a R := by
  unfold remP2C
  rw [← List.countP_eq_length_filter, ← List.countP_eq_length_filter]
  apply List.countP_mono_left
  intro nb _ hq
  have hq' : nb.2 = providerToCustomer ∧ nb.1 ∉ R' := by simpa using hq
  simp only [decide_eq_true_eq]
  exact ⟨hq'.1, fun hmem => hq'.2 (hsub _ hmem)⟩

theorem remP2C_pos (g : ASGraph) (a : Int) (R : List Int) (h : 1 ≤ remP2C g a R) :
    ∃ nb ∈ g.get_neighbors a, nb.2 = providerToCustomer ∧ nb.1 ∉ R := by
  unfold remP2C at h
  cases hf : (g.get_neighbors a).filter (fun nb => nb.2 = providerToCustomer ∧ nb.1 ∉ R) with
  | nil => rw [hf] at h; simp at h
  | cons nb rest =>
    have hmem : nb ∈ (g.get_neighbors a).filter
        (fun nb => nb.2 = providerToCustomer ∧ nb.1 ∉ R) := by
      rw [hf]; exact List.mem_cons_self _ _
    obtain ⟨h1, h2⟩ := List.mem_filter.mp hmem
    exact ⟨nb, h1, by simpa using h2⟩

theorem remP2C_zero (g : ASGraph) (a : Int) (R : List Int) (h : remP2C g a R = 0) :
    ∀ nb ∈ g.get_neighbors a, nb.2 = providerToCustomer → nb.1 ∈ R := by
  intro nb hnb hrel
  by_contra hmem
  have : nb ∈ (g.get_neighbors a).filter
      (fun nb => nb.2 = providerToCustomer ∧ nb.1 ∉ R) :=
    List.mem_filter.mpr ⟨hnb, by simp [hrel, hmem]⟩
  unfold remP2C at h
  rw [List.length_eq_zero.mp h] at this
  simp at this

theorem sumMult_pos (g : ASGraph) (W : List Int) (a : Int) (h : 1 ≤ sumMult g W a) :
    ∃ c ∈ W, (a, customerToProvider) ∈ g.get_neighbors c := by
  by_contra hno
  push_neg at hno
  have : sumMult g W a = 0 := by
    unfold sumMult
    rw [List.sum_eq_zero]
    intro x hx
    obtain ⟨c, hc, hcx⟩ := List.mem_map.mp hx
    rw [← hcx]
    unfold multC2P
    rw [List.count_eq_zero]
    exact hno c hc
  omega

/-- The master invariant of the wave loop of `flatten_graph`, at a wave
boundary: counters equal the number of undrained customer entries, the
ranked keys and the queued wave are disjoint duplicate-free subsets of
`all_asns`, wave members (and ranked members) have counter 0, untouched
members have positive counters, and the recorded ranks carry the
customer-below / has-customer-at-previous-rank structure. -/
structure KahnInv (g : ASGraph) (counts : Int → Int) (wave : List Int)
    (rank : Nat) (a2r : List (Int × Nat)) : Prop where
  hcounts : ∀ a, counts a = (remP2C g a (keysOf a2r) : Int)
  hnd : (keysOf a2r ++ wave).Nodup
  hsub : ∀ x ∈ keysOf a2r ++ wave, x ∈ g.all_asns
  hranked0 : ∀ a ∈ keysOf a2r, counts a = 0
  hwave0 : ∀ a ∈ wave, counts a = 0
  huntouched : ∀ a ∈ g.all_asns, a ∉ keysOf a2r → a ∉ wave → ¬ counts a = 0
  hrlt : ∀ e ∈ a2r, e.2 < rank
  hcust : ∀ e ∈ a2r, ∀ nb ∈ customersOf g e.1, ∃ r2, (nb.1, r2) ∈ a2r ∧ r2 < e.2
  hzero : ∀ e ∈ a2r, e.2 = 0 → customersOf g e.1 = []
  hsucc : ∀ e ∈ a2r, 1 ≤ e.2 → ∃ c r0, r0 + 1 = e.2 ∧ (c, r0) ∈ a2r ∧
    (c, providerToCustomer) ∈ g.get_neighbors e.1
  hwzero : ∀ a ∈ wave, rank = 0 → customersOf g a = []
  hwsucc : ∀ a ∈ wave, 1 ≤ rank → ∃ c r0, r0 + 1 = rank ∧ (c, r0) ∈ a2r ∧
    (c, providerToCustomer) ∈ g.get_neighbors a

/-- What the final rank table satisfies. -/
structure RankFacts (g : ASGraph) (A : List (Int × Nat)) : Prop where
  hcust : ∀ e ∈ A, ∀ nb ∈ customersOf g e.1, ∃ r2, (nb.1, r2) ∈ A ∧ r2 < e.2
  hzero : ∀ e ∈ A, e.2 = 0 → customersOf g e.1 = []
  hsucc : ∀ e ∈ A, 1 ≤ e.2 → ∃ c r0, r0 + 1 = e.2 ∧ (c, r0) ∈ A ∧
    (c, providerToCustomer) ∈ g.get_neighbors e.1

theorem mem_customersOf (g : ASGraph) (x : Int) (nb : Int × RelationType) :
    nb ∈ customersOf g x ↔ nb ∈ g.get_neighbors x ∧ nb.2 = providerToCustomer := by
  simp [customersOf, List.mem_filter]

theorem mem_iff_count_pos {α : Type} [BEq α] [LawfulBEq α] {l : List α} {a : α} :
    a ∈ l ↔ 1 ≤ List.count a l := by
  rw [Nat.one_le_iff_ne_zero, Ne, List.count_eq_zero]
  exact ⟨fun h h' => h' h, not_not.mp⟩

/-- One wave of the loop preserves the invariant (with the rank advanced
and the wave recorded). -/
theorem kahnStep (g : ASGraph)
    (hsym : ∀ c p : Int, List.count (p, customerToProvider) (g.get_neighbors c)
      = List.count (c, providerToCustomer) (g.get_neighbors p))
    (hnbcl : ∀ a : Int, ∀ nb ∈ g.get_neighbors a, nb.1 ∈ g.all_asns)
    (counts : Int → Int) (wave : List Int) (rank : Nat) (a2r : List (Int × Nat))
    (inv : KahnInv g counts wave rank a2r) :
    KahnInv g (processWave g counts wave).1 (processWave g counts wave).2 (rank + 1)
      (a2r ++ wave.map (fun a => (a, rank))) := by
  obtain ⟨hcounts, hnd, hsub, hranked0, hwave0, huntouched, hrlt, hcust, hzero,
    hsucc, hwzero, hwsucc⟩ := inv
  have hndR : (keysOf a2r).Nodup := (List.nodup_append.mp hnd).1
  have hndW : wave.Nodup := (List.nodup_append.mp hnd).2.1
  have hdisjRW : ∀ x ∈ keysOf a2r, x ∉ wave := fun x hx => (List.nodup_append.mp hnd).2.2 hx
  have hdisjWR : ∀ c ∈ wave, c ∉ keysOf a2r := fun c hc hcr => hdisjRW c hcr hc
  have hPC : ∀ a, (processWave g counts wave).1 a
      = counts a - (sumMult g wave a : Int) := (processWave_spec g wave counts []).1
  have hPQ0 : ∀ a, List.count a (processWave g counts wave).2
      = (if 1 ≤ counts a ∧ counts a ≤ (sumMult g wave a : Int) then 1 else 0) := by
    intro a
    have h := (processWave_spec g wave counts []).2 a
    simpa using h
  have hbridge : ∀ a, (remP2C g a (keysOf a2r) : Int) - sumMult g wave a
      = remP2C g a (keysOf a2r ++ wave) :=
    fun a => counts_bridge g hsym a wave (keysOf a2r) hndW hdisjWR
  have hcounts' : ∀ a, (processWave g counts wave).1 a
      = (remP2C g a (keysOf a2r ++ wave) : Int) := by
    intro a
    rw [hPC a, hcounts a, hbridge a]
  have hkeys : keysOf (a2r ++ wave.map (fun a => (a, rank))) = keysOf a2r ++ wave := by
    rw [keysOf_append, keysOf_mapRank]
  have hnext_iff : ∀ a, a ∈ (processWave g counts wave).2 ↔
      (1 ≤ counts a ∧ counts a ≤ (sumMult g wave a : Int)) := by
    intro a
    rw [mem_iff_count_pos, hPQ0 a]
    split_ifs with h
    · simpa using h
    · simpa using h
  have hnextnd : ((processWave g counts wave).2).Nodup := by
    rw [List.nodup_iff_count_le_one]
    intro a
    rw [hPQ0 a]
    split_ifs <;> omega
  have hnext_notRW : ∀ a ∈ (processWave g counts wave).2,
      a ∉ keysOf a2r ∧ a ∉ wave := by
    intro a ha
    obtain ⟨h1, h2⟩ := (hnext_iff a).mp ha
    constructor
    · intro hmem
      have := hranked0 a hmem
      omega
    · intro hmem
      have := hwave0 a hmem
      omega
  have hnext_all : ∀ a ∈ (processWave g counts wave).2, a ∈ g.all_asns := by
    intro a ha
    obtain ⟨h1, h2⟩ := (hnext_iff a).mp ha
    have hS : 1 ≤ sumMult g wave a := by omega
    obtain ⟨c, hc, hmem⟩ := sumMult_pos g wave a hS
    exact hnbcl c _ hmem
  have hnext0 : ∀ a ∈ (processWave g counts wave).2, (processWave g counts wave).1 a = 0 := by
    intro a ha
    obtain ⟨h1, h2⟩ := (hnext_iff a).mp ha
    have hge : (0:Int) ≤ (remP2C g a (keysOf a2r ++ wave) : Int) := Int.natCast_nonneg _
    have he1 := hcounts' a
    have he2 := hPC a
    omega
  have hrem0 : ∀ a, a ∈ keysOf a2r ∨ a ∈ wave → remP2C g a (keysOf a2r ++ wave) = 0 := by
    intro a ha
    have h0 : counts a = 0 := by
      rcases ha with h | h
      · exact hranked0 a h
      · exact hwave0 a h
    have hra : remP2C g a (keysOf a2r) = 0 := by
      have := hcounts a
      omega
    have := remP2C_mono g a (keysOf a2r) (keysOf a2r ++ wave)
      (fun x hx => List.mem_append_left _ hx)
    omega
  refine ⟨?_, ?_, ?_, ?_, ?_, ?_, ?_, ?_, ?_, ?_, ?_, ?_⟩
  · intro a
    rw [hkeys]
    exact hcounts' a
  · rw [hkeys]
    rw [List.nodup_append]
    refine ⟨hnd, hnextnd, ?_⟩
    intro x hx hxn
    obtain ⟨hn1, hn2⟩ := hnext_notRW x hxn
    rcases List.mem_append.mp hx with h | h
    · exact hn1 h
    · exact hn2 h
  · intro x hx
    rw [hkeys] at hx
    rcases List.mem_append.mp hx with h | h
    · exact hsub x h
    · exact hnext_all x h
  · intro a ha
    rw [hkeys] at ha
    rw [hcounts' a]
    have := hrem0 a (List.mem_append.mp ha)
    omega
  · exact hnext0
  · intro a hall hnr hnw
    rw [hkeys] at hnr
    rw [hcounts' a]
    intro hzero'
    have hz : remP2C g a (keysOf a2r ++ wave) = 0 := by
      omega
    have hnR : a ∉ keysOf a2r := fun h => hnr (List.mem_append_left _ h)
    have hnW : a ∉ wave := fun h => hnr (List.mem_append_right _ h)
    have hc0 : ¬ counts a = 0 := huntouched a hall hnR hnW
    have hcpos : 1 ≤ counts a := by
      have := hcounts a
      have : (0:Int) ≤ counts a := by omega
      omega
    have hca : counts a ≤ (sumMult g wave a : Int) := by
      have h1 := hcounts a
      have h2 := hbridge a
      omega
    exact hnw ((hnext_iff a).mpr ⟨hcpos, hca⟩)
  · intro e he
    rcases List.mem_append.mp he with h | h
    · exact Nat.lt_succ_of_lt (hrlt e h)
    · obtain ⟨a, _, hae⟩ := List.mem_map.mp h
      rw [← hae]
      exact Nat.lt_succ_self rank
  · intro e he nb hnb
    rcases List.mem_append.mp he with h | h
    · obtain ⟨r2, hr2, hlt⟩ := hcust e h nb hnb
      exact ⟨r2, List.mem_append_left _ hr2, hlt⟩
    · obtain ⟨a, haw, hae⟩ := List.mem_map.mp h
      subst hae
      simp only at hnb ⊢
      have h0 : counts a = 0 := hwave0 a haw
      have hra : remP2C g a (keysOf a2r) = 0 := by
        have := hcounts a
        omega
      obtain ⟨hmem, hrel⟩ := (mem_customersOf g a nb).mp hnb
      have hin : nb.1 ∈ keysOf a2r := remP2C_zero g a (keysOf a2r) hra nb hmem hrel
      obtain ⟨e', he', hee⟩ := List.mem_map.mp hin
      refine ⟨e'.2, List.mem_append_left _ ?_, ?_⟩
      · rw [← hee]
        exact he'
      · exact hrlt e' he'
  · intro e he h0
    rcases List.mem_append.mp he with h | h
    · exact hzero e h h0
    · obtain ⟨a, haw, hae⟩ := List.mem_map.mp h
      subst hae
      simp only at h0 ⊢
      exact hwzero a haw h0
  · intro e he h1
    rcases List.mem_append.mp he with h | h
    · obtain ⟨c, r0, hr0, hcr, hrel⟩ := hsucc e h h1
      exact ⟨c, r0, hr0, List.mem_append_left _ hcr, hrel⟩
    · obtain ⟨a, haw, hae⟩ := List.mem_map.mp h
      subst hae
      simp only at h1 ⊢
      obtain ⟨c, r0, hr0, hcr, hrel⟩ := hwsucc a haw h1
      exact ⟨c, r0, hr0, List.mem_append_left _ hcr, hrel⟩
  · intro a _ hcontra
    exact absurd hcontra (Nat.succ_ne_zero rank)
  · intro a ha _
    obtain ⟨h1, h2⟩ := (hnext_iff a).mp ha
    have hra : 1 ≤ remP2C g a (keysOf a2r) := by
      have := hcounts a
      omega
    obtain ⟨nb, hmem, hrel, hnotR⟩ := remP2C_pos g a (keysOf a2r) hra
    have hz : remP2C g a (keysOf a2r ++ wave) = 0 := by
      have ha0 := hnext0 a ha
      have := hcounts' a
      omega
    have hinRW : nb.1 ∈ keysOf a2r ++ wave :=
      remP2C_zero g a (keysOf a2r ++ wave) hz nb hmem hrel
    have hinW : nb.1 ∈ wave := by
      rcases List.mem_append.mp hinRW with h | h
      · exact absurd h hnotR
      · exact h
    refine ⟨nb.1, rank, rfl, ?_, ?_⟩
    · refine List.mem_append_right _ ?_
      exact List.mem_map.mpr ⟨nb.1, hinW, rfl⟩
    · have : nb = (nb.1, providerToCustomer) := by
        cases nb
        simpa using hrel
      rw [← this]
      exact hmem

theorem kahnLoop_zero (g : ASGraph) (counts : Int → Int) (wave : List Int)
    (rank : Nat) (a2r : List (Int × Nat)) (r2a : List (List Int)) :
    kahnLoop g 0 counts wave rank a2r r2a = (a2r, r2a) := rfl

theorem kahnLoop_succ_nil (g : ASGraph) (fuel : Nat) (counts : Int → Int)
    (rank : Nat) (a2r : List (Int × Nat)) (r2a : List (List Int)) :
    kahnLoop g (fuel + 1) counts [] rank a2r r2a = (a2r, r2a) := rfl

theorem kahnLoop_succ_cons (g : ASGraph) (fuel : Nat) (counts : Int → Int)
    (w : Int) (ws : List Int) (rank : Nat) (a2r : List (Int × Nat)) (r2a : List (List Int)) :
    kahnLoop g (fuel + 1) counts (w :: ws) rank a2r r2a =
      kahnLoop g fuel (processWave g counts (w :: ws)).1 (processWave g counts (w :: ws)).2
        (rank + 1) (a2r ++ (w :: ws).map (fun a => (a, rank))) (r2a ++ [w :: ws]) := rfl

/-- When the wave empties, every ASN is ranked: an unranked ASN would
have a positive counter, hence an unranked customer, descending the
height measure forever. -/
theorem kahn_complete (g : ASGraph)
    (hsym : ∀ c p : Int, List.count (p, customerToProvider) (g.get_neighbors c)
      = List.count (c, providerToCustomer) (g.get_neighbors p))
    (hnbcl : ∀ a : Int, ∀ nb ∈ g.get_neighbors a, nb.1 ∈ g.all_asns)
    (hgt : Int → Nat) (hmono : ∀ c p : Int, CProv g c p → hgt c < hgt p)
    (counts : Int → Int) (rank : Nat) (a2r : List (Int × Nat))
    (inv : KahnInv g counts [] rank a2r) :
    ∀ a ∈ g.all_asns, a ∈ keysOf a2r := by
  have step : ∀ a ∈ g.all_asns, a ∉ keysOf a2r →
      ∃ c ∈ g.all_asns, c ∉ keysOf a2r ∧ hgt c < hgt a := by
    intro a hall hnr
    have hc0 : ¬ counts a = 0 := inv.huntouched a hall hnr (by simp)
    have hra : 1 ≤ remP2C g a (keysOf a2r) := by
      have := inv.hcounts a
      omega
    obtain ⟨nb, hmem, hrel, hnotR⟩ := remP2C_pos g a (keysOf a2r) hra
    have hcall : nb.1 ∈ g.all_asns := hnbcl a nb hmem
    have hcp : CProv g nb.1 a := by
      have hnb : nb = (nb.1, providerToCustomer) := by
        cases nb
        simpa using hrel
      have hpos : 1 ≤ List.count (nb.1, providerToCustomer) (g.get_neighbors a) :=
        mem_iff_count_pos.mp (hnb ▸ hmem)
      have hs := hsym nb.1 a
      unfold CProv
      exact mem_iff_count_pos.mpr (by omega)
    exact ⟨nb.1, hcall, hnotR, hmono nb.1 a hcp⟩
  have key : ∀ n : Nat, ∀ a ∈ g.all_asns, a ∉ keysOf a2r → hgt a ≤ n → False := by
    intro n
    induction n with
    | zero =>
      intro a hall hnr hle
      obtain ⟨c, _, _, hlt⟩ := step a hall hnr
      omega
    | succ n ih =>
      intro a hall hnr hle
      obtain ⟨c, hcall, hcnr, hlt⟩ := step a hall hnr
      exact ih c hcall hcnr (by omega)
  intro a hall
  by_contra h
  exact key (hgt a) a hall h le_rfl

theorem kahnLoop_spec (g : ASGraph)
    (hsym : ∀ c p : Int, List.count (p, customerToProvider) (g.get_neighbors c)
      = List.count (c, providerToCustomer) (g.get_neighbors p))
    (hnbcl : ∀ a : Int, ∀ nb ∈ g.get_neighbors a, nb.1 ∈ g.all_asns)
    (hgt : Int → Nat) (hmono : ∀ c p : Int, CProv g c p → hgt c < hgt p) :
    ∀ (fuel : Nat) (counts : Int → Int) (wave : List Int) (rank : Nat)
      (a2r : List (Int × Nat)) (r2a : List (List Int)),
      KahnInv g counts wave rank a2r →
      g.all_asns.length + 1 ≤ fuel + (keysOf a2r).length →
      (keysOf (kahnLoop g fuel counts wave rank a2r r2a).1).Nodup ∧
      (∀ a ∈ g.all_asns, a ∈ keysOf (kahnLoop g fuel counts wave rank a2r r2a).1) ∧
      RankFacts g (kahnLoop g fuel counts wave rank a2r r2a).1 := by
  intro fuel
  induction fuel with
  | zero =>
    intro counts wave rank a2r r2a inv hbudget
    exfalso
    have h1 : (keysOf a2r).Nodup := (List.nodup_append.mp inv.hnd).1
    have h2 : keysOf a2r ⊆ g.all_asns :=
      fun x hx => inv.hsub x (List.mem_append_left _ hx)
    have := (h1.subperm h2).length_le
    omega
  | succ fuel ih =>
    intro counts wave rank a2r r2a inv hbudget
    cases wave with
    | nil =>
      rw [kahnLoop_succ_nil]
      exact ⟨(List.nodup_append.mp inv.hnd).1,
        kahn_complete g hsym hnbcl hgt hmono counts rank a2r inv,
        ⟨inv.hcust, inv.hzero, inv.hsucc⟩⟩
    | cons w ws =>
      rw [kahnLoop_succ_cons]
      have inv' := kahnStep g hsym hnbcl counts (w :: ws) rank a2r inv
      refine ih _ _ _ _ _ inv' ?_
      have hklen : (keysOf (a2r ++ (w :: ws).map (fun a => (a, rank)))).length
          = (keysOf a2r).length + (w :: ws).length := by
        rw [keysOf_append, keysOf_mapRank, List.length_append]
      rw [hklen]
      simp only [List.length_cons]
      omega

/-- The invariant at the start of the wave loop. -/
theorem kahnInit (g : ASGraph) (hallnd : g.all_asns.Nodup) :
    KahnInv g (initCounts g) (g.all_asns.filter (fun a => initCounts g a = 0)) 0 [] := by
  have hrem : ∀ a, (remP2C g a [] : Int) = initCounts g a := by
    intro a
    unfold remP2C initCounts
    congr 2
    apply List.filter_congr
    intro x _
    simp
  refine ⟨?_, ?_, ?_, ?_, ?_, ?_, ?_, ?_, ?_, ?_, ?_, ?_⟩
  · intro a
    simp only [keysOf, List.map_nil]
    exact (hrem a).symm
  · simpa [keysOf] using hallnd.filter _
  · intro x hx
    simp only [keysOf, List.map_nil, List.nil_append] at hx
    exact (List.mem_filter.mp hx).1
  · intro a ha
    simp [keysOf] at ha
  · intro a ha
    have := (List.mem_filter.mp ha).2
    simpa using this
  · intro a hall hnr hnw h0
    exact hnw (List.mem_filter.mpr ⟨hall, by simpa using h0⟩)
  · intro e he; simp at he
  · intro e he; simp at he
  · intro e he; simp at he
  · intro e he; simp at he
  · intro a ha _
    have h0 : initCounts g a = 0 := by
      have := (List.mem_filter.mp ha).2
      simpa using this
    unfold initCounts at h0
    unfold customersOf
    have hlen : ((g.get_neighbors a).filter
        (fun nb => nb.2 = providerToCustomer)).length = 0 := by
      omega
    exact List.length_eq_zero.mp hlen
  · intro a _ h1
    exact absurd h1 (by omega)

/-- The whole `flatten_graph` run: every ASN is ranked, ranks are unique
per key, and the rank table satisfies `RankFacts`. -/
theorem flatten_spec (g : ASGraph) (hallnd : g.all_asns.Nodup)
    (hsym : ∀ c p : Int, List.count (p, customerToProvider) (g.get_neighbors c)
      = List.count (c, providerToCustomer) (g.get_neighbors p))
    (hnbcl : ∀ a : Int, ∀ nb ∈ g.get_neighbors a, nb.1 ∈ g.all_asns)
    (hgt : Int → Nat) (hmono : ∀ c p : Int, CProv g c p → hgt c < hgt p) :
    (keysOf (flatten_graph g).1).Nodup ∧
    (∀ a ∈ g.all_asns, a ∈ keysOf (flatten_graph g).1) ∧
    RankFacts g (flatten_graph g).1 := by
  have hinit := kahnInit g hallnd
  have := kahnLoop_spec g hsym hnbcl hgt hmono (g.all_asns.length + 1)
    (initCounts g) (g.all_asns.filter (fun a => initCounts g a = 0)) 0 [] [] hinit
    (by simp [keysOf])
  exact this

theorem lookup_of_mem (A : List (Int × Nat)) (hnd : (keysOf A).Nodup) (a : Int) (r : Nat)
    (h : (a, r) ∈ A) : A.find? (fun e => e.1 = a) = some (a, r) := by
  induction A with
  | nil => simp at h
  | cons e rest ih =>
    have hnd' : (keysOf rest).Nodup := by
      simp only [keysOf, List.map_cons, List.nodup_cons] at hnd
      exact hnd.2
    have hhead : e.1 ∉ keysOf rest := by
      simp only [keysOf, List.map_cons, List.nodup_cons] at hnd
      exact hnd.1
    rcases List.mem_cons.mp h with heq | hmem
    · rw [← heq]
      simp [List.find?]
    · by_cases hkey : e.1 = a
      · exfalso
        apply hhead
        rw [hkey]
        exact List.mem_map.mpr ⟨(a, r), hmem, rfl⟩
      · rw [List.find?]
        simp only [hkey, decide_eq_false_iff_not.mpr hkey]
        exact ih hnd' hmem

theorem rankOf_of_mem (g : ASGraph) (hnd : (keysOf (flatten_graph g).1).Nodup)
    (a : Int) (r : Nat) (h : (a, r) ∈ (flatten_graph g).1) : rankOf g a = some r := by
  unfold rankOf
  rw [lookup_of_mem (flatten_graph g).1 hnd a r h]

theorem mem_of_rankOf (g : ASGraph) (a : Int) (r : Nat) (h : rankOf g a = some r) :
    (a, r) ∈ (flatten_graph g).1 := by
  unfold rankOf at h
  cases hf : (flatten_graph g).1.find? (fun e => e.1 = a) with
  | none => rw [hf] at h; simp at h
  | some e =>
    rw [hf] at h
    have h1 : e.1 = a := by simpa using List.find?_some hf
    have h2 : e.2 = r := by simpa using h
    have : e = (a, r) := by
      cases e
      simp only at h1 h2
      rw [h1, h2]
    rw [← this]
    exact List.mem_of_find?_eq_some hf

theorem cprov_of_rev (g : ASGraph)
    (hsym : ∀ c p : Int, List.count (p, customerToProvider) (g.get_neighbors c)
      = List.count (c, providerToCustomer) (g.get_neighbors p))
    (c a : Int) (h : (c, providerToCustomer) ∈ g.get_neighbors a) : CProv g c a := by
  have hpos := mem_iff_count_pos.mp h
  have hs := hsym c a
  exact mem_iff_count_pos.mpr (by omega)

theorem rev_of_cprov (g : ASGraph)
    (hsym : ∀ c p : Int, List.count (p, customerToProvider) (g.get_neighbors c)
      = List.count (c, providerToCustomer) (g.get_neighbors p))
    (c p : Int) (h : CProv g c p) : (c, providerToCustomer) ∈ g.get_neighbors p := by
  have hpos := mem_iff_count_pos.mp h
  have hs := hsym c p
  exact mem_iff_count_pos.mpr (by omega)

/-- A ranked ASN is reached from below by a customer→provider chain of
exactly its rank many edges. -/
theorem chain_exists (g : ASGraph)
    (hsym : ∀ c p : Int, List.count (p, customerToProvider) (g.get_neighbors c)
      = List.count (c, providerToCustomer) (g.get_neighbors p))
    (A : List (Int × Nat)) (hrf : RankFacts g A) :
    ∀ r : Nat, ∀ a : Int, (a, r) ∈ A →
      ∃ ch : List Int, List.Chain' (CProv g) ch ∧ ch.getLast? = some a ∧
        ch.length = r + 1 := by
  intro r
  induction r using Nat.strong_induction_on with
  | _ r ih =>
    intro a ha
    cases r with
    | zero => exact ⟨[a], List.chain'_singleton a, rfl, rfl⟩
    | succ r0' =>
      obtain ⟨c, r0, hr0, hcr, hrel⟩ := hrf.hsucc (a, r0' + 1) ha (by omega)
      have hr0' : r0 = r0' := by omega
      subst hr0'
      obtain ⟨ch, hch, hlast, hlen⟩ := ih r0 (by omega) c hcr
      refine ⟨ch ++ [a], ?_, ?_, ?_⟩
      · rw [List.chain'_append]
        refine ⟨hch, List.chain'_singleton a, ?_⟩
        intro x hx y hy
        have hxc : c = x := by
          rw [hlast] at hx
          simpa using hx
        have hya : a = y := by simpa using hy
        subst hxc
        subst hya
        exact cprov_of_rev g hsym c a hrel
      · rw [List.getLast?_concat]
      · simp [hlen]

/-- Every customer→provider chain reaching a ranked ASN has at most its
rank many edges. -/
theorem chain_bound (g : ASGraph)
    (hsym : ∀ c p : Int, List.count (p, customerToProvider) (g.get_neighbors c)
      = List.count (c, providerToCustomer) (g.get_neighbors p))
    (A : List (Int × Nat)) (hrf : RankFacts g A) :
    ∀ ch : List Int, List.Chain' (CProv g) ch → ∀ a r, ch.getLast? = some a →
      (a, r) ∈ A → ch.length ≤ r + 1 := by
  intro ch
  induction ch using List.reverseRecOn with
  | nil =>
    intro _ a r hlast _
    simp at hlast
  | append_singleton ys y ihys =>
    intro hch a r hlast hmem
    rw [List.getLast?_concat] at hlast
    have hay : y = a := by simpa using hlast
    subst hay
    rw [List.chain'_append] at hch
    obtain ⟨hchys, _, hedge⟩ := hch
    cases hys : ys.getLast? with
    | none =>
      have : ys = [] := by
        cases ys with
        | nil => rfl
        | cons z zs => simp [List.getLast?_concat] at hys
      subst this
      simp
    | some b =>
      have hcp : CProv g b y := hedge b (by rw [hys]; rfl) y rfl
      have hbmem : (b, providerToCustomer) ∈ g.get_neighbors y :=
        rev_of_cprov g hsym b y hcp
      have hbc : (b, providerToCustomer) ∈ customersOf g y :=
        (mem_customersOf g y (b, providerToCustomer)).mpr ⟨hbmem, rfl⟩
      obtain ⟨r2, hr2, hlt⟩ := hrf.hcust (y, r) hmem (b, providerToCustomer) hbc
      have hlen : ys.length ≤ r2 + 1 := ihys hchys b r2 hys hr2
      simp only [List.length_append, List.length_singleton]
      omega

/-- C5.  Rank correctness of `flatten_graph` on a well-formed graph
(duplicate-free `all_asns`, adjacency targets inside `all_asns` and
inside the adjacency keys, multiset edge symmetry — all guaranteed by
`add_relationship` — and acyclicity of the customer→provider relation,
supplied as a strictly monotone height measure, which exists for a finite
relation iff it is acyclic): every ASN receives a rank; the rank is 0 iff
the ASN has no customers (no outgoing `PROVIDER_TO_CUSTOMER` adjacency
entries); every customer of a ranked ASN has a strictly smaller rank; and
the rank is exactly the length of the longest customer→provider chain
reaching the ASN from below. -/
theorem flatten_rank_C5 :
    ∀ (g : ASGraph) (hgt : Int → Nat),
      g.all_asns.Nodup →
      (∀ e ∈ g.adjacency, ∀ nb ∈ e.2, nb.1 ∈ g.all_asns) →
      (∀ e ∈ g.adjacency, ∀ nb ∈ e.2, nb.1 ∈ g.adjacency.map Prod.fst) →
      (∀ e ∈ g.adjacency, ∀ e' ∈ g.adjacency,
        List.count (e'.1, customerToProvider) e.2
          = List.count (e.1, providerToCustomer) e'.2) →
      (∀ e ∈ g.adjacency, ∀ nb ∈ e.2, nb.2 = customerToProvider → hgt e.1 < hgt nb.1) →
      (∀ a ∈ g.all_asns, ∃ r, rankOf g a = some r) ∧
      (∀ a ∈ g.all_asns, (rankOf g a = some 0 ↔ customersOf g a = [])) ∧
      (∀ a r, rankOf g a = some r → ∀ nb ∈ customersOf g a,
        ∃ rc, rankOf g nb.1 = some rc ∧ rc < r) ∧
      (∀ a r, rankOf g a = some r →
        (∃ ch, List.Chain' (CProv g) ch ∧ ch.getLast? = some a ∧ ch.length = r + 1) ∧
        (∀ ch, List.Chain' (CProv g) ch → ch.getLast? = some a → ch.length ≤ r + 1)) := by
  intro g hgt hallnd hclosed hkeysc hpairs hmonodec
  have hsym := symm_count g hkeysc hpairs
  have hnbcl := nb_closed g hclosed
  have hmono : ∀ c p : Int, CProv g c p → hgt c < hgt p := by
    intro c p hcp
    unfold CProv at hcp
    rcases get_neighbors_split g c with ⟨e, he, hek, hlist⟩ | ⟨_, hc⟩
    · rw [hlist] at hcp
      have := hmonodec e he (p, customerToProvider) hcp rfl
      rw [hek] at this
      exact this
    · rw [hc] at hcp
      simp at hcp
  obtain ⟨hndk, hcompl, hrf⟩ := flatten_spec g hallnd hsym hnbcl hgt hmono
  have hmemrank : ∀ a ∈ g.all_asns, ∃ r, (a, r) ∈ (flatten_graph g).1 := by
    intro a ha
    obtain ⟨e, he, hee⟩ := List.mem_map.mp (hcompl a ha)
    exact ⟨e.2, by rw [← hee]; simpa using he⟩
  refine ⟨?_, ?_, ?_, ?_⟩
  · intro a ha
    obtain ⟨r, hr⟩ := hmemrank a ha
    exact ⟨r, rankOf_of_mem g hndk a r hr⟩
  · intro a ha
    constructor
    · intro h0
      exact hrf.hzero (a, 0) (mem_of_rankOf g a 0 h0) rfl
    · intro hnone
      obtain ⟨r, hr⟩ := hmemrank a ha
      have hro := rankOf_of_mem g hndk a r hr
      cases r with
      | zero => exact hro
      | succ r0 =>
        exfalso
        obtain ⟨c, _, _, _, hrel⟩ := hrf.hsucc (a, r0 + 1) hr (by omega)
        have : (c, providerToCustomer) ∈ customersOf g a :=
          (mem_customersOf g a (c, providerToCustomer)).mpr ⟨hrel, rfl⟩
        rw [hnone] at this
        simp at this
  · intro a r hr nb hnb
    obtain ⟨r2, hr2, hlt⟩ := hrf.hcust (a, r) (mem_of_rankOf g a r hr) nb hnb
    exact ⟨r2, rankOf_of_mem g hndk nb.1 r2 hr2, hlt⟩
  · intro a r hr
    have hmem := mem_of_rankOf g a r hr
    exact ⟨chain_exists g hsym (flatten_graph g).1 hrf r a hmem,
      fun ch hch hlast => chain_bound g hsym (flatten_graph g).1 hrf ch hch a r hlast hmem⟩

/-- Closed witness for C5 on the concrete graph `1|2|-1`, `1|3|-1`
(AS 1 provider of both 2 and 3), with the height measure 1 ↦ 1, else 0. -/
theorem flatten_rank_C5_witness :
    ((load_from_file_lines ["1|2|-1", "1|3|-1"]).all_asns.Nodup ∧
      (∀ e ∈ (load_from_file_lines ["1|2|-1", "1|3|-1"]).adjacency, ∀ nb ∈ e.2,
        nb.2 = customerToProvider →
          (fun a : Int => if a = 1 then 1 else 0) e.1
            < (fun a : Int => if a = 1 then 1 else 0) nb.1)) ∧
    (∀ a ∈ (load_from_file_lines ["1|2|-1", "1|3|-1"]).all_asns,
      ∃ r, rankOf (load_from_file_lines ["1|2|-1", "1|3|-1"]) a = some r) := by
  refine ⟨⟨by decide, by decide⟩, ?_⟩
  exact (flatten_rank_C5 (load_from_file_lines ["1|2|-1", "1|3|-1"])
    (fun a : Int => if a = 1 then 1 else 0)
    (by decide) (by decide) (by decide) (by decide) (by decide)).1

end BGPSim
